import Mathlib

/-!
Verification development for the rule-based transaction classification engine
in `beancount/ingest/rule.py`.

The embedding models Python values appearing in rule fields and record
metadata as `Val` (strings or integers), Python `None` as `Option.none`,
and Python exceptions (`KeyError`, `AssertionError`, `TypeError`,
`AttributeError`, the explicit `Exception` raised for a missing `rules`
key) as an `Except PyErr` result.  Mutation of the working result object
and of each rule's transient `is_mask` attribute is modelled by explicit
state passing: `Ruler.matchFull` returns both the classification result
and the post-call state of the stored rule list.
-/

/-- A Python value stored in a rule field or a metadata entry: a string or
an integer.  Equality across the two constructors is `False`, like Python
`==` across `str` and `int`. -/
inductive Val where
  | vstr : String → Val
  | vint : Int → Val
deriving DecidableEq

/-- Python truthiness of a value: the empty string and `0` are falsy. -/
def Val.truthy : Val → Bool
  | Val.vstr s => !(s == "")
  | Val.vint n => !(n == 0)

/-- Python truthiness of an optional value (`None` is falsy). -/
def truthyOpt : Option Val → Bool
  | none => false
  | some v => v.truthy

/-- Decidable test that a character list `needle` is a prefix of `hay`. -/
def isPrefList : List Char → List Char → Bool
  | [], _ => true
  | _ :: _, [] => false
  | a :: as, b :: bs => a == b && isPrefList as bs

/-- Decidable test that `needle` occurs as a contiguous sublist of `hay`. -/
def subList (needle : List Char) : List Char → Bool
  | [] => needle.isEmpty
  | c :: t => isPrefList needle (c :: t) || subList needle t

/-- Python `needle in hay` for strings: substring containment. -/
def strContains (hay needle : String) : Bool :=
  subList needle.data hay.data

/-- The sixteen rule field names enumerated by `RuleMeta.get_fields`. -/
inductive FieldK where
  | payee | item | txn_type | txn_method | txn_inout
  | start_time | end_time | method_account | target_account
  | seperator | txn_status | txn_meta | txn_input | txn_output
  | txn_mask | txn_exclude
deriving DecidableEq

/-- The Python string name of a field, as used by the field-name resolver. -/
def FieldK.name : FieldK → String
  | FieldK.payee => "payee"
  | FieldK.item => "item"
  | FieldK.txn_type => "txn_type"
  | FieldK.txn_method => "txn_method"
  | FieldK.txn_inout => "txn_inout"
  | FieldK.start_time => "start_time"
  | FieldK.end_time => "end_time"
  | FieldK.method_account => "method_account"
  | FieldK.target_account => "target_account"
  | FieldK.seperator => "seperator"
  | FieldK.txn_status => "txn_status"
  | FieldK.txn_meta => "txn_meta"
  | FieldK.txn_input => "txn_input"
  | FieldK.txn_output => "txn_output"
  | FieldK.txn_mask => "txn_mask"
  | FieldK.txn_exclude => "txn_exclude"

/-- One parsed rule (`RuleMeta.__init__`): every field starts as `None`,
including the transient `is_mask` flag. -/
structure RuleMeta where
  payee : Option Val := none
  item : Option Val := none
  seperator : Option Val := none
  txn_type : Option Val := none
  txn_method : Option Val := none
  txn_inout : Option Val := none
  txn_status : Option Val := none
  start_time : Option Val := none
  end_time : Option Val := none
  method_account : Option Val := none
  target_account : Option Val := none
  txn_meta : Option Val := none
  txn_input : Option Val := none
  txn_output : Option Val := none
  is_mask : Option Bool := none
  txn_mask : Option Val := none
  txn_exclude : Option Val := none
deriving DecidableEq

/-- Field order returned by `RuleMeta.get_fields` in the source. -/
def RuleMeta.fieldList : List FieldK :=
  [FieldK.payee, FieldK.item, FieldK.txn_type, FieldK.txn_method,
   FieldK.txn_inout, FieldK.start_time, FieldK.end_time,
   FieldK.method_account, FieldK.target_account, FieldK.seperator,
   FieldK.txn_status, FieldK.txn_meta, FieldK.txn_input,
   FieldK.txn_output, FieldK.txn_mask, FieldK.txn_exclude]

/-- Python `getattr(rule, k)` for the sixteen enumerated fields. -/
def RuleMeta.getF (r : RuleMeta) : FieldK → Option Val
  | FieldK.payee => r.payee
  | FieldK.item => r.item
  | FieldK.txn_type => r.txn_type
  | FieldK.txn_method => r.txn_method
  | FieldK.txn_inout => r.txn_inout
  | FieldK.start_time => r.start_time
  | FieldK.end_time => r.end_time
  | FieldK.method_account => r.method_account
  | FieldK.target_account => r.target_account
  | FieldK.seperator => r.seperator
  | FieldK.txn_status => r.txn_status
  | FieldK.txn_meta => r.txn_meta
  | FieldK.txn_input => r.txn_input
  | FieldK.txn_output => r.txn_output
  | FieldK.txn_mask => r.txn_mask
  | FieldK.txn_exclude => r.txn_exclude

/-- Python `setattr(rule, k, v)` for the sixteen enumerated fields. -/
def RuleMeta.setF (r : RuleMeta) : FieldK → Option Val → RuleMeta
  | FieldK.payee, v => { r with payee := v }
  | FieldK.item, v => { r with item := v }
  | FieldK.txn_type, v => { r with txn_type := v }
  | FieldK.txn_method, v => { r with txn_method := v }
  | FieldK.txn_inout, v => { r with txn_inout := v }
  | FieldK.start_time, v => { r with start_time := v }
  | FieldK.end_time, v => { r with end_time := v }
  | FieldK.method_account, v => { r with method_account := v }
  | FieldK.target_account, v => { r with target_account := v }
  | FieldK.seperator, v => { r with seperator := v }
  | FieldK.txn_status, v => { r with txn_status := v }
  | FieldK.txn_meta, v => { r with txn_meta := v }
  | FieldK.txn_input, v => { r with txn_input := v }
  | FieldK.txn_output, v => { r with txn_output := v }
  | FieldK.txn_mask, v => { r with txn_mask := v }
  | FieldK.txn_exclude, v => { r with txn_exclude := v }

/-- Recursion of `RuleMeta.is_txn_method`: walk the fields, counting the
truthy ones among `txn_method`/`method_account` and returning `False` as
soon as any other field is truthy; succeed iff the final count is `2`. -/
def isTxnMethodGo (r : RuleMeta) : List FieldK → Nat → Bool
  | [], ans => ans == 2
  | k :: ks, ans =>
    if truthyOpt (r.getF k) then
      if k == FieldK.txn_method || k == FieldK.method_account then
        isTxnMethodGo r ks (ans + 1)
      else false
    else isTxnMethodGo r ks ans

/-- `RuleMeta.is_txn_method`: exactly `txn_method` and `method_account`
are set (truthy) and every other enumerated field is falsy. -/
def RuleMeta.isTxnMethod (r : RuleMeta) : Bool :=
  isTxnMethodGo r RuleMeta.fieldList 0

/-- `RuleMeta.check`: count the fields (account fields excepted) that are
`None`; the rule is invalid iff all fourteen of them are `None`. -/
def RuleMeta.check (r : RuleMeta) : Bool :=
  let c := (RuleMeta.fieldList.filter (fun k =>
    !(k == FieldK.method_account) && !(k == FieldK.target_account)
      && (r.getF k).isNone)).length
  !(c == RuleMeta.fieldList.length - 2)

/-- Python exceptions that the engine can raise. -/
inductive PyErr where
  | keyError : String → PyErr
  | assertError : PyErr
  | typeError : PyErr
  | attrError : PyErr
  | noRulesError : PyErr
deriving DecidableEq

/-- An input record's metadata: an insertion-ordered mapping from string
keys to values. -/
def Meta := List (String × Val)

/-- Dictionary lookup `meta[key]` as an `Option` (first matching key). -/
def lookupMeta : List (String × Val) → String → Option Val
  | [], _ => none
  | (k, v) :: rest, key => if k = key then some v else lookupMeta rest key

/-- The result of calling the field-name resolver and testing the Python
truthiness of its return value (`None` and `""` are both falsy). -/
def resolveKey (fm : String → Option String) (k : String) : Option String :=
  match fm k with
  | none => none
  | some s => if s = "" then none else some s

/-- The identity field-name resolver installed when `match` is called
without an explicit `func_map`. -/
def idFM : String → Option String := fun k => some k

/-- Candidate-value extraction in `Ruler._match`: a `None` field yields no
candidates; with a truthy separator a string value is split and each piece
trimmed; otherwise the raw value is the single candidate.  A non-string
value with a truthy separator raises `AttributeError`; a non-string
separator applied to a string raises `TypeError`. -/
def getValues (r : RuleMeta) (k : FieldK) : Except PyErr (Option (List Val)) :=
  match r.getF k with
  | none => Except.ok none
  | some v =>
    if truthyOpt r.seperator then
      match v, r.seperator with
      | Val.vint _, _ => Except.error PyErr.attrError
      | Val.vstr s, some (Val.vstr sep) =>
        Except.ok (some ((s.splitOn sep).map (fun x => Val.vstr x.trim)))
      | Val.vstr _, some (Val.vint _) => Except.error PyErr.typeError
      | Val.vstr s, none => Except.ok (some [Val.vstr s])
    else Except.ok (some [v])

/-- Mask-state computation per scanned metadata value `v`: `False` when
the rule's exclusion string is truthy and occurs in `v`, `True` otherwise.
A truthy non-string exclusion raises `TypeError` from `exclude in v`. -/
def maskUpdate (v : String) (exclude : Option Val) : Except PyErr Bool :=
  match exclude with
  | none => Except.ok true
  | some e =>
    if e.truthy then
      match e with
      | Val.vstr es => Except.ok (!(strContains v es))
      | Val.vint _ => Except.error PyErr.typeError
    else Except.ok true

/-- Inner loop of the `txn_meta`/`txn_mask` scan: try every candidate
value against one metadata value `v`, updating the field-check flag and,
for `txn_mask`, the transient mask state. -/
def valScanOne (isMaskField : Bool) (exclude : Option Val) (v : Val) :
    List Val → Bool → Option Bool → Except PyErr (Bool × Option Bool)
  | [], fc, st => Except.ok (fc, st)
  | val :: vals, fc, st =>
    match v, val with
    | Val.vstr vs, Val.vstr cand =>
      if strContains vs cand then
        if isMaskField then
          match maskUpdate vs exclude with
          | Except.error e => Except.error e
          | Except.ok m => valScanOne isMaskField exclude v vals true (some m)
        else valScanOne isMaskField exclude v vals true st
      else valScanOne isMaskField exclude v vals fc st
    | _, _ => valScanOne isMaskField exclude v vals fc st

/-- Outer loop of the `txn_meta`/`txn_mask` scan: every metadata entry is
scanned (no early exit), threading the flag and mask state. -/
def metaScan (isMaskField : Bool) (exclude : Option Val) (values : List Val) :
    List (String × Val) → Bool → Option Bool → Except PyErr (Bool × Option Bool)
  | [], fc, st => Except.ok (fc, st)
  | (_, v) :: rest, fc, st =>
    match valScanOne isMaskField exclude v values fc st with
    | Except.error e => Except.error e
    | Except.ok (fc2, st2) => metaScan isMaskField exclude values rest fc2 st2

/-- Equality-field loop of `Ruler._match`: a falsy resolver result makes
the condition false for every candidate; otherwise `meta[key]` is looked
up, raising `KeyError` when the key is absent, and compared for equality
with each candidate (first success breaks). -/
def eqFieldCheck (meta : List (String × Val)) (resolved : Option String) :
    List Val → Except PyErr Bool
  | [] => Except.ok false
  | v :: vs =>
    match resolved with
    | none => eqFieldCheck meta none vs
    | some key =>
      match lookupMeta meta key with
      | none => Except.error (PyErr.keyError key)
      | some mv => if v = mv then Except.ok true else eqFieldCheck meta (some key) vs

/-- The field loop of `Ruler._match`: account, separator and exclusion
fields are modifiers and are skipped; unset fields are skipped; a failing
field check returns `False` immediately; the transient mask state `st` is
threaded through.  Returns the predicate outcome together with the rule's
`is_mask` state after the call. -/
def matchFields (meta : List (String × Val)) (fm : String → Option String)
    (r : RuleMeta) : List FieldK → Option Bool → Except PyErr (Bool × Option Bool)
  | [], st => Except.ok (true, st)
  | k :: ks, st =>
    if k = FieldK.method_account ∨ k = FieldK.target_account ∨
        k = FieldK.seperator ∨ k = FieldK.txn_exclude then
      matchFields meta fm r ks st
    else
      match getValues r k with
      | Except.error e => Except.error e
      | Except.ok none => matchFields meta fm r ks st
      | Except.ok (some values) =>
        if k = FieldK.txn_meta ∨ k = FieldK.txn_mask then
          match metaScan (k == FieldK.txn_mask) r.txn_exclude values meta false st with
          | Except.error e => Except.error e
          | Except.ok (fc, st2) =>
            if fc then matchFields meta fm r ks st2 else Except.ok (false, st2)
        else
          match eqFieldCheck meta (resolveKey fm (FieldK.name k)) values with
          | Except.error e => Except.error e
          | Except.ok fc =>
            if fc then matchFields meta fm r ks st else Except.ok (false, st)

/-- `Ruler._match`: evaluate a rule's predicate against a record, starting
from the rule's current transient mask state. -/
def ruleMatch (r : RuleMeta) (meta : List (String × Val))
    (fm : String → Option String) : Except PyErr (Bool × Option Bool) :=
  matchFields meta fm r RuleMeta.fieldList r.is_mask

/-- The engine configuration as parsed from the rule-set resource: the two
top-level default accounts (absent key modelled as `none`) and the
optional `rules` list, each entry a mapping from string keys to values. -/
structure Config where
  default_method_account : Option Val := none
  default_target_account : Option Val := none
  rules : Option (List (List (String × Val))) := none
deriving DecidableEq

/-- Building one `RuleMeta` from a rule definition: for each recognized
field name present in the definition, copy the value; unrecognized keys
are ignored. -/
def convertRule (cfg : List (String × Val)) : RuleMeta :=
  RuleMeta.fieldList.foldl (fun r f =>
    match lookupMeta cfg (FieldK.name f) with
    | some v => RuleMeta.setF r f (some v)
    | none => r) {}

/-- `Ruler._convert_to_rules`: a missing `rules` key raises; otherwise
each definition is converted (the `check` result computed there is
discarded by the source). -/
def convertToRules (c : Config) : Except PyErr (List RuleMeta) :=
  match c.rules with
  | none => Except.error PyErr.noRulesError
  | some rcfgs => Except.ok (rcfgs.map convertRule)

/-- The engine: its configuration and its stored, mutable rule list. -/
structure Ruler where
  config : Config
  rules : List RuleMeta
deriving DecidableEq

/-- `Ruler.__init__` after the file has been read and parsed: convert the
rules and assert `rule.check()` for each.  No validation of the default
accounts happens here. -/
def mkRuler (c : Config) : Except PyErr Ruler :=
  match convertToRules c with
  | Except.error e => Except.error e
  | Except.ok rs =>
    if rs.all RuleMeta.check then Except.ok (Ruler.mk c rs)
    else Except.error PyErr.assertError

/-- Fetching a default account from the parsed configuration dictionary
(`KeyError` when the key is absent). -/
def cfgMinus (c : Config) : Except PyErr Val :=
  match c.default_method_account with
  | some v => Except.ok v
  | none => Except.error (PyErr.keyError "default_method_account")

/-- Fetching the default target account (`KeyError` when absent). -/
def cfgPlus (c : Config) : Except PyErr Val :=
  match c.default_target_account with
  | some v => Except.ok v
  | none => Except.error (PyErr.keyError "default_target_account")

/-- Pass 1 of `Ruler.match`: for every rule, assert `check`; for method
rules, resolve the `txn_method` key (a falsy resolver result makes the
condition false; a missing record key raises `KeyError`) and on equality
overwrite the working result's `method_account`.  No early exit. -/
def pass1 (meta : List (String × Val)) (fm : String → Option String) :
    List RuleMeta → RuleMeta → Except PyErr RuleMeta
  | [], ans => Except.ok ans
  | r :: rs, ans =>
    if r.check = false then Except.error PyErr.assertError
    else if r.isTxnMethod then
      match resolveKey fm (FieldK.name FieldK.txn_method) with
      | none => pass1 meta fm rs ans
      | some key =>
        match lookupMeta meta key with
        | none => Except.error (PyErr.keyError key)
        | some mv =>
          if r.txn_method = some mv then
            pass1 meta fm rs { ans with method_account := r.method_account }
          else pass1 meta fm rs ans
    else pass1 meta fm rs ans

/-- The field-copy loop after a non-mask rule matches: every enumerated
field except the two account fields is copied from the rule onto the
working result (including `None` values).  The loop writes each
non-account attribute in `fieldList` order; since the attributes are
distinct its net effect is exactly this record. -/
def copyFields (ans r : RuleMeta) : RuleMeta :=
  { payee := r.payee, item := r.item, seperator := r.seperator,
    txn_type := r.txn_type, txn_method := r.txn_method,
    txn_inout := r.txn_inout, txn_status := r.txn_status,
    start_time := r.start_time, end_time := r.end_time,
    method_account := ans.method_account, target_account := ans.target_account,
    txn_meta := r.txn_meta, txn_input := r.txn_input,
    txn_output := r.txn_output, is_mask := ans.is_mask,
    txn_mask := r.txn_mask, txn_exclude := r.txn_exclude }

/-- The result-overwriting step of a matching non-mask rule: set the
result's `is_mask` from the rule's post-evaluation state, overwrite the
accounts when the rule's account values are truthy, then copy all other
fields. -/
def applyRule (ans r : RuleMeta) (st : Option Bool) : RuleMeta :=
  let a1 : RuleMeta := { ans with is_mask := st }
  let a2 : RuleMeta := match r.method_account with
    | some v => if v.truthy then { a1 with method_account := some v } else a1
    | none => a1
  let a3 : RuleMeta := match r.target_account with
    | some v => if v.truthy then { a2 with target_account := some v } else a2
    | none => a2
  copyFields a3 r

/-- Pass 2 of `Ruler.match`: method rules are skipped; each remaining rule
is checked (assertion) and its predicate evaluated.  On a match the
working result's `is_mask` is set from the rule's post-evaluation state;
a truthy mask state stops processing immediately; otherwise truthy account
fields overwrite the result's accounts and all other fields are copied.
Returns the result together with the post-call rule list (state of the
mutable `is_mask` attributes). -/
def pass2 (meta : List (String × Val)) (fm : String → Option String) :
    List RuleMeta → RuleMeta → Except PyErr (RuleMeta × List RuleMeta)
  | [], ans => Except.ok (ans, [])
  | r :: rs, ans =>
    if r.isTxnMethod then
      match pass2 meta fm rs ans with
      | Except.error e => Except.error e
      | Except.ok (a, rs2) => Except.ok (a, r :: rs2)
    else if r.check = false then Except.error PyErr.assertError
    else
      match ruleMatch r meta fm with
      | Except.error e => Except.error e
      | Except.ok (fc, st) =>
        if fc then
          if st = some true then
            Except.ok ({ ans with is_mask := st }, { r with is_mask := st } :: rs)
          else
            match pass2 meta fm rs (applyRule ans r st) with
            | Except.error e => Except.error e
            | Except.ok (a, rs2) => Except.ok (a, { r with is_mask := st } :: rs2)
        else
          match pass2 meta fm rs ans with
          | Except.error e => Except.error e
          | Except.ok (a, rs2) => Except.ok (a, { r with is_mask := st } :: rs2)

/-- `Ruler.match` with the mutation of the stored rules made explicit:
initialize the working result from the two configured defaults (KeyError
on a missing key, assertion on a falsy value), run pass 1, assert, run
pass 2, assert, and return the result with the post-call rule list. -/
def Ruler.matchFull (R : Ruler) (meta : List (String × Val))
    (fm : String → Option String) : Except PyErr (RuleMeta × List RuleMeta) :=
  match cfgMinus R.config with
  | Except.error e => Except.error e
  | Except.ok dm =>
    match cfgPlus R.config with
    | Except.error e => Except.error e
    | Except.ok dp =>
      let ans : RuleMeta := { method_account := some dm, target_account := some dp }
      if truthyOpt ans.method_account = false then Except.error PyErr.assertError
      else if truthyOpt ans.target_account = false then Except.error PyErr.assertError
      else
        match pass1 meta fm R.rules ans with
        | Except.error e => Except.error e
        | Except.ok ans1 =>
          if truthyOpt ans1.method_account = false then Except.error PyErr.assertError
          else if truthyOpt ans1.target_account = false then Except.error PyErr.assertError
          else
            match pass2 meta fm R.rules ans1 with
            | Except.error e => Except.error e
            | Except.ok (ans2, rs2) =>
              if truthyOpt ans2.method_account = false then Except.error PyErr.assertError
              else if truthyOpt ans2.target_account = false then Except.error PyErr.assertError
              else Except.ok (ans2, rs2)

/-- `Ruler.match`: the classification result of one call. -/
def Ruler.matchMeta (R : Ruler) (meta : List (String × Val))
    (fm : String → Option String) : Except PyErr RuleMeta :=
  (R.matchFull meta fm).map Prod.fst

/-- Guarded set insertion used by `garther_accounts` (Python membership
semantics made deterministic as first-occurrence order; the final sort
makes the order immaterial). -/
def collectAccounts : List RuleMeta → List Val → List Val
  | [], acc => acc
  | r :: rs, acc =>
    let a1 : List Val := match r.method_account with
      | some v => if v.truthy then (if v ∈ acc then acc else acc ++ [v]) else acc
      | none => acc
    let a2 : List Val := match r.target_account with
      | some v => if v.truthy then (if v ∈ a1 then a1 else a1 ++ [v]) else a1
      | none => a1
    collectAccounts rs a2

/-- Extraction of an all-string account list; a non-string member makes
Python's mixed-type `list.sort` raise `TypeError`. -/
def toStrings : List Val → Option (List String)
  | [] => some []
  | Val.vstr s :: rest =>
    match toStrings rest with
    | some l => some (s :: l)
    | none => none
  | Val.vint _ :: _ => none

/-- `Ruler.garther_accounts`: the deduplicated collection of the two
default accounts plus every truthy rule account, sorted ascending. -/
def Ruler.gartherAccounts (R : Ruler) : Except PyErr (List String) :=
  match cfgMinus R.config with
  | Except.error e => Except.error e
  | Except.ok dm =>
    match cfgPlus R.config with
    | Except.error e => Except.error e
    | Except.ok dp =>
      let base : List Val := if dp = dm then [dm] else [dm, dp]
      match toStrings (collectAccounts R.rules base) with
      | none => Except.error PyErr.typeError
      | some ss => Except.ok (List.insertionSort (fun a b : String => a ≤ b) ss)

/-- The pass-1 matching condition for a method rule, as a total test: a
falsy resolver result or a missing record key counts as no match (the
latter diverges from `pass1`, which raises `KeyError` there). -/
def methodMatches (meta : List (String × Val)) (fm : String → Option String)
    (r : RuleMeta) : Bool :=
  match resolveKey fm (FieldK.name FieldK.txn_method) with
  | none => false
  | some key =>
    match lookupMeta meta key with
    | none => false
    | some mv => r.txn_method = some mv

/-- Specification of pass 1 following the spec text: the last method rule
in list order whose `txn_method` equals the resolved record value supplies
the `method_account`; with no such rule the accumulator is unchanged. -/
def lastMethodAccount (meta : List (String × Val)) (fm : String → Option String) :
    List RuleMeta → Option Val → Option Val
  | [], acc => acc
  | r :: rs, acc =>
    if r.isTxnMethod && methodMatches meta fm r then
      lastMethodAccount meta fm rs r.method_account
    else lastMethodAccount meta fm rs acc

/-- Relation between a stored rule before and after one `match` call: only
the transient `is_mask` attribute may change, and it is unchanged when the
rule has no `txn_mask` field. -/
def stepRel (a b : RuleMeta) : Prop :=
  b = { a with is_mask := b.is_mask } ∧ (a.txn_mask = none → b.is_mask = a.is_mask)

deriving instance DecidableEq for Except

/-- Number of truthy method-rule fields (`txn_method`/`method_account`)
among a list of field names; used to characterize `isTxnMethod`. -/
def mCount (r : RuleMeta) (ks : List FieldK) : Nat :=
  (ks.filter (fun k => (k == FieldK.txn_method || k == FieldK.method_account)
    && truthyOpt (r.getF k))).length

/-- Safety of the pass-1 record lookup: the resolved `txn_method` key, if
truthy, is present in the record. -/
def mKeySafe (meta : List (String × Val)) (fm : String → Option String) : Bool :=
  match resolveKey fm (FieldK.name FieldK.txn_method) with
  | none => true
  | some key => (lookupMeta meta key).isSome

/-- Pass 1 cannot raise `KeyError`: if any method rule exists, the
`txn_method` lookup is safe. -/
def p1safe (meta : List (String × Val)) (fm : String → Option String)
    (rules : List RuleMeta) : Prop :=
  rules.any (fun r => r.isTxnMethod) = true → mKeySafe meta fm = true

/-- Safety of the equality-field lookup for one field name. -/
def fieldKeySafe (meta : List (String × Val)) (fm : String → Option String)
    (k : FieldK) : Bool :=
  match resolveKey fm (FieldK.name k) with
  | none => true
  | some key => (lookupMeta meta key).isSome

/-- Every enumerated field either does not resolve or resolves to a key
present in the record. -/
def keysSafeB (meta : List (String × Val)) (fm : String → Option String) : Bool :=
  RuleMeta.fieldList.all (fun k => fieldKeySafe meta fm k)

/-- A field value that is absent or a string (Python rule files normally
hold strings). -/
def valIsStr : Option Val → Bool
  | none => true
  | some (Val.vstr _) => true
  | some (Val.vint _) => false

/-- Every enumerated field of the rule is absent or a string. -/
def strFields (r : RuleMeta) : Bool :=
  RuleMeta.fieldList.all (fun k => valIsStr (r.getF k))

/-- Both account fields of a rule are absent or strings. -/
def accStrB (r : RuleMeta) : Bool :=
  valIsStr r.method_account && valIsStr r.target_account

/-- A valid configuration with non-empty defaults, used as a concrete
instance in several statements. -/
def cfgA : Config :=
  { default_method_account := some (Val.vstr "Assets:M"),
    default_target_account := some (Val.vstr "Expenses:T") }

/-- A rule matching `payee == "mike"`. -/
def ruleP : RuleMeta := { payee := some (Val.vstr "mike") }

/-- A valid configuration carrying one payee rule. -/
def cfgB : Config :=
  { default_method_account := some (Val.vstr "Assets:M"),
    default_target_account := some (Val.vstr "Expenses:T"),
    rules := some [[("payee", Val.vstr "mike")]] }

/-- The engine built from `cfgB`. -/
def engB : Ruler := Ruler.mk cfgB [ruleP]

/-- A resolver that resolves only the `payee` field name. -/
def fmP : String → Option String := fun k => if k = "payee" then some k else none

/-- A mask rule with an exclusion string. -/
def maskFooBar : RuleMeta :=
  { txn_mask := some (Val.vstr "foo"), txn_exclude := some (Val.vstr "bar") }

/-- A plain rule matched after the mask rule in the section-8 scenario. -/
def ruleAfter : RuleMeta :=
  { payee := some (Val.vstr "p"), target_account := some (Val.vstr "T2") }

/-- The engine for the mask/exclusion scenario. -/
def engMask : Ruler := Ruler.mk cfgA [maskFooBar, ruleAfter]

/-- Record metadata whose value `"foobar"` contains both the mask and the
exclusion strings. -/
def metaFoobar : List (String × Val) :=
  [("item", Val.vstr "foobar"), ("payee", Val.vstr "p")]

/-- Record metadata whose value `"foobaz"` contains the mask string but
not the exclusion string. -/
def metaFoobaz : List (String × Val) :=
  [("item", Val.vstr "foobaz"), ("payee", Val.vstr "p")]

/-- A mask rule without exclusion. -/
def maskFoo : RuleMeta := { txn_mask := some (Val.vstr "foo") }

/-- A method-shortcut rule. -/
def methodWx : RuleMeta :=
  { txn_method := some (Val.vstr "wx"), method_account := some (Val.vstr "Assets:W") }

/-- Engine with a mask rule followed by a method rule. -/
def engMaskMethod : Ruler := Ruler.mk cfgA [maskFoo, methodWx]

/-- Engine with the mask rule only. -/
def engMaskOnly : Ruler := Ruler.mk cfgA [maskFoo]

/-- A record matching both the mask rule and the method rule. -/
def metaWx : List (String × Val) :=
  [("k", Val.vstr "foo"), ("txn_method", Val.vstr "wx")]

/-- Three rules matching `payee == "a"` with distinct target accounts. -/
def rT1 : RuleMeta :=
  { payee := some (Val.vstr "a"), target_account := some (Val.vstr "T1") }

/-- Second target rule of the precedence scenario. -/
def rT2 : RuleMeta :=
  { payee := some (Val.vstr "a"), target_account := some (Val.vstr "T2") }

/-- Third target rule of the precedence scenario. -/
def rT3 : RuleMeta :=
  { payee := some (Val.vstr "a"), target_account := some (Val.vstr "T3") }

/-- Engine with the three target rules in order. -/
def engT3 : Ruler := Ruler.mk cfgA [rT1, rT2, rT3]

/-- The record matched by all three target rules. -/
def metaA : List (String × Val) := [("payee", Val.vstr "a")]

/-- A configuration with a missing default method account but a
well-formed rule list. -/
def cfgNoDm : Config :=
  { default_method_account := none,
    default_target_account := some (Val.vstr "x"),
    rules := some [[("payee", Val.vstr "a")]] }

/-- The engine that `mkRuler` produces from `cfgNoDm`. -/
def engNoDm : Ruler := Ruler.mk cfgNoDm [{ payee := some (Val.vstr "a") }]

/-- Engine with a method rule and a plain rule, for the pass-1 claims. -/
def engP1 : Ruler := Ruler.mk cfgA [methodWx, rT1]

/-- A record that matches the method rule and the plain rule. -/
def metaP1 : List (String × Val) :=
  [("txn_method", Val.vstr "wx"), ("payee", Val.vstr "a")]

/-- A record matching no rule of `engP1`: wrong method, wrong payee. -/
def metaNone : List (String × Val) :=
  [("txn_method", Val.vstr "zz"), ("payee", Val.vstr "b")]

/-- Whether an `Except` computation returned a value (used to state
witnesses of existential conclusions). -/
def exOk {α : Type} : Except PyErr α → Bool
  | Except.ok _ => true
  | Except.error _ => false

theorem getF_maskIrrel (r : RuleMeta) (x : Option Bool) (k : FieldK) :
    RuleMeta.getF { r with is_mask := x } k = RuleMeta.getF r k := by
  cases k <;> rfl

theorem copyFields_eq (a r : RuleMeta) :
    copyFields a r =
      { payee := r.payee, item := r.item, seperator := r.seperator,
        txn_type := r.txn_type, txn_method := r.txn_method,
        txn_inout := r.txn_inout, txn_status := r.txn_status,
        start_time := r.start_time, end_time := r.end_time,
        method_account := a.method_account, target_account := a.target_account,
        txn_meta := r.txn_meta, txn_input := r.txn_input,
        txn_output := r.txn_output, is_mask := a.is_mask,
        txn_mask := r.txn_mask, txn_exclude := r.txn_exclude } := rfl

theorem stepRel_refl (r : RuleMeta) : stepRel r r := ⟨rfl, fun _ => rfl⟩

theorem isTxnMethodGo_maskIrrel (r : RuleMeta) (x : Option Bool) :
    ∀ ks n, isTxnMethodGo { r with is_mask := x } ks n = isTxnMethodGo r ks n := by
  intro ks
  induction ks with
  | nil => intro n; rfl
  | cons k ks ih => intro n; simp [isTxnMethodGo, getF_maskIrrel, ih]

theorem isTxnMethod_maskIrrel (r : RuleMeta) (x : Option Bool) :
    RuleMeta.isTxnMethod { r with is_mask := x } = r.isTxnMethod := by
  unfold RuleMeta.isTxnMethod
  exact isTxnMethodGo_maskIrrel r x _ _

theorem check_maskIrrel (r : RuleMeta) (x : Option Bool) :
    RuleMeta.check { r with is_mask := x } = r.check := by
  unfold RuleMeta.check
  rw [List.filter_congr (fun a _ => by rw [getF_maskIrrel])]

theorem copyFields_maskIrrel (a r : RuleMeta) (x : Option Bool) :
    copyFields a { r with is_mask := x } = copyFields a r := rfl

theorem mCount_cons (r : RuleMeta) (k : FieldK) (ks : List FieldK) :
    mCount r (k :: ks) =
      (if ((k == FieldK.txn_method || k == FieldK.method_account)
          && truthyOpt (r.getF k)) = true
       then mCount r ks + 1 else mCount r ks) := by
  simp only [mCount, List.filter_cons]
  split
  · simp
  · rfl

theorem isTxnMethodGo_count (r : RuleMeta) :
    ∀ ks n, isTxnMethodGo r ks n = true → n + mCount r ks = 2 := by
  intro ks
  induction ks with
  | nil =>
    intro n h
    simp only [isTxnMethodGo] at h
    have : n = 2 := by simpa using h
    simp [mCount, this]
  | cons k ks ih =>
    intro n h
    simp only [isTxnMethodGo] at h
    rw [mCount_cons]
    by_cases ht : truthyOpt (r.getF k) = true
    · rw [if_pos ht] at h
      by_cases hk : (k == FieldK.txn_method || k == FieldK.method_account) = true
      · rw [if_pos hk] at h
        have := ih (n + 1) h
        rw [if_pos (by simp [hk, ht])]
        omega
      · rw [if_neg hk] at h
        exact absurd h (by simp)
    · rw [if_neg ht] at h
      have := ih n h
      rw [if_neg (fun hcontra => ht (Bool.and_eq_true _ _ |>.mp hcontra).2)]
      exact this

theorem mCount_fieldList (r : RuleMeta) :
    mCount r RuleMeta.fieldList =
      (if truthyOpt r.txn_method then 1 else 0)
        + (if truthyOpt r.method_account then 1 else 0) := by
  rcases htm : truthyOpt r.txn_method <;> rcases hma : truthyOpt r.method_account <;>
    simp [mCount_cons, mCount, RuleMeta.fieldList, RuleMeta.getF, htm, hma]

theorem isTxnMethod_truthyAccounts (r : RuleMeta)
    (h : r.isTxnMethod = true) :
    truthyOpt r.txn_method = true ∧ truthyOpt r.method_account = true := by
  have hc := isTxnMethodGo_count r RuleMeta.fieldList 0 h
  rw [mCount_fieldList] at hc
  rcases htm : truthyOpt r.txn_method <;> rcases hma : truthyOpt r.method_account <;>
    simp [htm, hma] at hc ⊢

theorem valScanOne_noMask (ex : Option Val) (v : Val) :
    ∀ vals fc, ∃ fc2, ∀ st2,
      valScanOne false ex v vals fc st2 = Except.ok (fc2, st2) := by
  intro vals
  induction vals with
  | nil => intro fc; exact ⟨fc, fun st2 => rfl⟩
  | cons val vals ih =>
    intro fc
    match v, val with
    | Val.vstr vs, Val.vstr cand =>
      by_cases hcon : strContains vs cand = true
      · rcases ih true with ⟨fc2, hfc2⟩
        exact ⟨fc2, fun st2 => by simp only [valScanOne, hcon, if_true]; exact hfc2 st2⟩
      · rcases ih fc with ⟨fc2, hfc2⟩
        refine ⟨fc2, fun st2 => ?_⟩
        simp only [valScanOne, Bool.not_eq_true] at hcon ⊢
        rw [hcon]
        exact hfc2 st2
    | Val.vstr vs, Val.vint n =>
      rcases ih fc with ⟨fc2, hfc2⟩
      exact ⟨fc2, fun st2 => hfc2 st2⟩
    | Val.vint n, val =>
      rcases ih fc with ⟨fc2, hfc2⟩
      exact ⟨fc2, fun st2 => hfc2 st2⟩

theorem metaScan_noMask (ex : Option Val) (vals : List Val) :
    ∀ entries fc, ∃ fc2, ∀ st2,
      metaScan false ex vals entries fc st2 = Except.ok (fc2, st2) := by
  intro entries
  induction entries with
  | nil => intro fc; exact ⟨fc, fun st2 => rfl⟩
  | cons e rest ih =>
    intro fc
    rcases e with ⟨k, v⟩
    rcases valScanOne_noMask ex v vals fc with ⟨fcm, hfcm⟩
    rcases ih fcm with ⟨fc2, hfc2⟩
    refine ⟨fc2, fun st2 => ?_⟩
    simp only [metaScan, hfcm st2]
    exact hfc2 st2

theorem valScanOne_indep (ex : Option Val) (v : Val) :
    ∀ vals fc,
      (∀ st1 st2, valScanOne true ex v vals fc st1 = valScanOne true ex v vals fc st2)
      ∨ (∀ st, valScanOne true ex v vals fc st = Except.ok (fc, st)) := by
  intro vals
  induction vals with
  | nil => intro fc; exact Or.inr fun st => rfl
  | cons val vals ih =>
    intro fc
    match v, val with
    | Val.vstr vs, Val.vstr cand =>
      by_cases hcon : strContains vs cand = true
      · left
        intro st1 st2
        simp only [valScanOne, hcon, if_true]
      · rcases ih fc with h | h
        · left
          intro st1 st2
          simp only [valScanOne, Bool.not_eq_true] at hcon ⊢
          rw [hcon]
          exact h st1 st2
        · right
          intro st
          simp only [valScanOne, Bool.not_eq_true] at hcon ⊢
          rw [hcon]
          exact h st
    | Val.vstr vs, Val.vint n =>
      rcases ih fc with h | h
      · exact Or.inl fun st1 st2 => h st1 st2
      · exact Or.inr fun st => h st
    | Val.vint n, val =>
      rcases ih fc with h | h
      · exact Or.inl fun st1 st2 => h st1 st2
      · exact Or.inr fun st => h st

theorem metaScan_indep (ex : Option Val) (vals : List Val) :
    ∀ entries fc,
      (∀ st1 st2, metaScan true ex vals entries fc st1 = metaScan true ex vals entries fc st2)
      ∨ (∀ st, metaScan true ex vals entries fc st = Except.ok (fc, st)) := by
  intro entries
  induction entries with
  | nil => intro fc; exact Or.inr fun st => rfl
  | cons e rest ih =>
    intro fc
    rcases e with ⟨k, v⟩
    rcases valScanOne_indep ex v vals fc with h | h
    · left
      intro st1 st2
      simp only [metaScan]
      rw [h st1 st2]
    · rcases ih fc with h2 | h2
      · left
        intro st1 st2
        simp only [metaScan, h]
        exact h2 st1 st2
      · right
        intro st
        simp only [metaScan, h]
        exact h2 st

theorem eqFieldCheck_noneRes (meta : List (String × Val)) :
    ∀ vals, eqFieldCheck meta none vals = Except.ok false := by
  intro vals
  induction vals with
  | nil => rfl
  | cons v vs ih => simpa [eqFieldCheck] using ih

theorem eqFieldCheck_total (meta : List (String × Val)) (res : Option String)
    (h : res = none ∨ ∃ key, res = some key ∧ (lookupMeta meta key).isSome = true) :
    ∀ vals, ∃ b, eqFieldCheck meta res vals = Except.ok b := by
  intro vals
  induction vals with
  | nil => exact ⟨false, rfl⟩
  | cons v vs ih =>
    rcases h with h | ⟨key, hkey, hsome⟩
    · subst h
      exact ⟨false, eqFieldCheck_noneRes meta _⟩
    · subst hkey
      rcases hmv : lookupMeta meta key with _ | mv
      · rw [hmv] at hsome; simp [Option.isSome] at hsome
      · rcases ih with ⟨b, hb⟩
        by_cases hveq : v = mv
        · exact ⟨true, by simp [eqFieldCheck, hmv, hveq]⟩
        · exact ⟨b, by simpa [eqFieldCheck, hmv, hveq] using hb⟩

theorem getValues_maskIrrel (r : RuleMeta) (x : Option Bool) (k : FieldK) :
    getValues { r with is_mask := x } k = getValues r k := by
  cases k <;> rfl

theorem txnExclude_maskIrrel (r : RuleMeta) (x : Option Bool) :
    ({ r with is_mask := x } : RuleMeta).txn_exclude = r.txn_exclude := rfl

theorem matchFields_maskIrrel (meta : List (String × Val))
    (fm : String → Option String) (r : RuleMeta) (x : Option Bool) :
    ∀ ks st, matchFields meta fm { r with is_mask := x } ks st
      = matchFields meta fm r ks st := by
  intro ks
  induction ks with
  | nil => intro st; rfl
  | cons k ks ih =>
    intro st
    simp only [matchFields, getValues_maskIrrel, txnExclude_maskIrrel, ih]

theorem fieldK_mem (k : FieldK) : k ∈ RuleMeta.fieldList := by
  cases k <;> simp [RuleMeta.fieldList]

theorem strFields_getF (r : RuleMeta) (h : strFields r = true) (k : FieldK) :
    valIsStr (r.getF k) = true := by
  have := List.all_eq_true.mp h k (fieldK_mem k)
  simpa using this

theorem getValues_total (r : RuleMeta) (hstr : strFields r = true) (k : FieldK) :
    ∃ ov, getValues r k = Except.ok ov := by
  have hsepstr := strFields_getF r hstr FieldK.seperator
  have hgsep : RuleMeta.getF r FieldK.seperator = r.seperator := rfl
  rw [hgsep] at hsepstr
  have hvstr := strFields_getF r hstr k
  rcases hv : r.getF k with _ | v
  · exact ⟨none, by simp [getValues, hv]⟩
  · rw [hv] at hvstr
    by_cases hsep : truthyOpt r.seperator = true
    · rcases hsv : r.seperator with _ | sv
      · rw [hsv] at hsep; simp [truthyOpt] at hsep
      · rcases sv with ss | sn
        · rcases v with vs | vn
          · rw [hsv] at hsep
            exact ⟨some ((vs.splitOn ss).map (fun x => Val.vstr x.trim)),
              by simp [getValues, hv, hsv, hsep]⟩
          · simp [valIsStr] at hvstr
        · rw [hsv] at hsepstr; simp [valIsStr] at hsepstr
    · exact ⟨some [v], by simp [getValues, hv, hsep]⟩

theorem maskUpdate_total (ex : Option Val) (hex : valIsStr ex = true) (v : String) :
    ∃ b, maskUpdate v ex = Except.ok b := by
  rcases ex with _ | e
  · exact ⟨true, rfl⟩
  · rcases e with s | n
    · by_cases ht : Val.truthy (Val.vstr s) = true
      · exact ⟨!(strContains v s), by simp [maskUpdate, ht]⟩
      · exact ⟨true, by simp [maskUpdate, ht]⟩
    · simp [valIsStr] at hex

theorem valScanOne_total (imf : Bool) (ex : Option Val) (hex : valIsStr ex = true)
    (v : Val) : ∀ vals fc st, ∃ fc2 st2,
      valScanOne imf ex v vals fc st = Except.ok (fc2, st2) := by
  intro vals
  induction vals with
  | nil => intro fc st; exact ⟨fc, st, rfl⟩
  | cons val vals ih =>
    intro fc st
    match v, val with
    | Val.vstr vs, Val.vstr cand =>
      by_cases hcon : strContains vs cand = true
      · rcases himf : imf with _ | _
        · rcases ih true st with ⟨fc2, st2, h2⟩
          rw [himf] at h2
          refine ⟨fc2, st2, ?_⟩
          simp only [valScanOne, hcon, if_true]
          rw [if_neg (fun hh => Bool.false_ne_true hh)]
          exact h2
        · rcases maskUpdate_total ex hex vs with ⟨m, hm⟩
          rcases ih true (some m) with ⟨fc2, st2, h2⟩
          rw [himf] at h2
          refine ⟨fc2, st2, ?_⟩
          simp only [valScanOne, hcon, if_true, hm]
          exact h2
      · rcases ih fc st with ⟨fc2, st2, h2⟩
        refine ⟨fc2, st2, ?_⟩
        simp only [valScanOne, Bool.not_eq_true] at hcon ⊢
        rw [hcon]
        exact h2
    | Val.vstr vs, Val.vint n => exact ih fc st
    | Val.vint n, val => exact ih fc st

theorem metaScan_total (imf : Bool) (ex : Option Val) (hex : valIsStr ex = true)
    (vals : List Val) : ∀ entries fc st, ∃ fc2 st2,
      metaScan imf ex vals entries fc st = Except.ok (fc2, st2) := by
  intro entries
  induction entries with
  | nil => intro fc st; exact ⟨fc, st, rfl⟩
  | cons e rest ih =>
    intro fc st
    rcases e with ⟨k, v⟩
    rcases valScanOne_total imf ex hex v vals fc st with ⟨fcm, stm, hm⟩
    rcases ih fcm stm with ⟨fc2, st2, h2⟩
    exact ⟨fc2, st2, by simp only [metaScan, hm]; exact h2⟩

theorem mfStep_skip (meta : List (String × Val)) (fm : String → Option String)
    (r : RuleMeta) (k : FieldK) (ks : List FieldK) (st : Option Bool)
    (hskip : k = FieldK.method_account ∨ k = FieldK.target_account ∨
      k = FieldK.seperator ∨ k = FieldK.txn_exclude) :
    matchFields meta fm r (k :: ks) st = matchFields meta fm r ks st := by
  simp only [matchFields]
  rw [if_pos hskip]

theorem mfStep_gvErr (meta : List (String × Val)) (fm : String → Option String)
    (r : RuleMeta) (k : FieldK) (ks : List FieldK) (st : Option Bool) (e : PyErr)
    (hskip : ¬(k = FieldK.method_account ∨ k = FieldK.target_account ∨
      k = FieldK.seperator ∨ k = FieldK.txn_exclude))
    (hgv : getValues r k = Except.error e) :
    matchFields meta fm r (k :: ks) st = Except.error e := by
  simp only [matchFields]
  rw [if_neg hskip, hgv]

theorem mfStep_gvNone (meta : List (String × Val)) (fm : String → Option String)
    (r : RuleMeta) (k : FieldK) (ks : List FieldK) (st : Option Bool)
    (hskip : ¬(k = FieldK.method_account ∨ k = FieldK.target_account ∨
      k = FieldK.seperator ∨ k = FieldK.txn_exclude))
    (hgv : getValues r k = Except.ok none) :
    matchFields meta fm r (k :: ks) st = matchFields meta fm r ks st := by
  simp only [matchFields]
  rw [if_neg hskip, hgv]

theorem mfStep_scanErr (meta : List (String × Val)) (fm : String → Option String)
    (r : RuleMeta) (k : FieldK) (ks : List FieldK) (st : Option Bool)
    (values : List Val) (e : PyErr)
    (hskip : ¬(k = FieldK.method_account ∨ k = FieldK.target_account ∨
      k = FieldK.seperator ∨ k = FieldK.txn_exclude))
    (hgv : getValues r k = Except.ok (some values))
    (hkm : k = FieldK.txn_meta ∨ k = FieldK.txn_mask)
    (hsc : metaScan (k == FieldK.txn_mask) r.txn_exclude values meta false st
      = Except.error e) :
    matchFields meta fm r (k :: ks) st = Except.error e := by
  simp only [matchFields]
  rw [if_neg hskip, hgv]
  dsimp only
  rw [if_pos hkm, hsc]

theorem mfStep_scanOk (meta : List (String × Val)) (fm : String → Option String)
    (r : RuleMeta) (k : FieldK) (ks : List FieldK) (st st2 : Option Bool)
    (values : List Val) (fc : Bool)
    (hskip : ¬(k = FieldK.method_account ∨ k = FieldK.target_account ∨
      k = FieldK.seperator ∨ k = FieldK.txn_exclude))
    (hgv : getValues r k = Except.ok (some values))
    (hkm : k = FieldK.txn_meta ∨ k = FieldK.txn_mask)
    (hsc : metaScan (k == FieldK.txn_mask) r.txn_exclude values meta false st
      = Except.ok (fc, st2)) :
    matchFields meta fm r (k :: ks) st =
      (if fc then matchFields meta fm r ks st2 else Except.ok (false, st2)) := by
  simp only [matchFields]
  rw [if_neg hskip, hgv]
  dsimp only
  rw [if_pos hkm, hsc]

theorem mfStep_eqErr (meta : List (String × Val)) (fm : String → Option String)
    (r : RuleMeta) (k : FieldK) (ks : List FieldK) (st : Option Bool)
    (values : List Val) (e : PyErr)
    (hskip : ¬(k = FieldK.method_account ∨ k = FieldK.target_account ∨
      k = FieldK.seperator ∨ k = FieldK.txn_exclude))
    (hgv : getValues r k = Except.ok (some values))
    (hkm : ¬(k = FieldK.txn_meta ∨ k = FieldK.txn_mask))
    (heq : eqFieldCheck meta (resolveKey fm (FieldK.name k)) values
      = Except.error e) :
    matchFields meta fm r (k :: ks) st = Except.error e := by
  simp only [matchFields]
  rw [if_neg hskip, hgv]
  dsimp only
  rw [if_neg hkm, heq]

theorem mfStep_eqOk (meta : List (String × Val)) (fm : String → Option String)
    (r : RuleMeta) (k : FieldK) (ks : List FieldK) (st : Option Bool)
    (values : List Val) (fc : Bool)
    (hskip : ¬(k = FieldK.method_account ∨ k = FieldK.target_account ∨
      k = FieldK.seperator ∨ k = FieldK.txn_exclude))
    (hgv : getValues r k = Except.ok (some values))
    (hkm : ¬(k = FieldK.txn_meta ∨ k = FieldK.txn_mask))
    (heq : eqFieldCheck meta (resolveKey fm (FieldK.name k)) values
      = Except.ok fc) :
    matchFields meta fm r (k :: ks) st =
      (if fc then matchFields meta fm r ks st else Except.ok (false, st)) := by
  simp only [matchFields]
  rw [if_neg hskip, hgv]
  dsimp only
  rw [if_neg hkm, heq]

theorem getValues_maskNone (r : RuleMeta) (h : r.txn_mask = none) :
    getValues r FieldK.txn_mask = Except.ok none := by
  simp [getValues, show r.getF FieldK.txn_mask = none from h]

theorem matchFields_noMaskId (meta : List (String × Val))
    (fm : String → Option String) (r : RuleMeta) (h : r.txn_mask = none) :
    ∀ ks, (∃ b, ∀ st, matchFields meta fm r ks st = Except.ok (b, st))
      ∨ (∃ e, ∀ st, matchFields meta fm r ks st = Except.error e) := by
  intro ks
  induction ks with
  | nil => exact Or.inl ⟨true, fun st => rfl⟩
  | cons k ks ih =>
    by_cases hskip : k = FieldK.method_account ∨ k = FieldK.target_account ∨
        k = FieldK.seperator ∨ k = FieldK.txn_exclude
    · rcases ih with ⟨b, hb⟩ | ⟨e, he⟩
      · exact Or.inl ⟨b, fun st => by rw [mfStep_skip _ _ _ _ _ _ hskip]; exact hb st⟩
      · exact Or.inr ⟨e, fun st => by rw [mfStep_skip _ _ _ _ _ _ hskip]; exact he st⟩
    · rcases hgv : getValues r k with e | ov
      · exact Or.inr ⟨e, fun st => mfStep_gvErr _ _ _ _ _ _ _ hskip hgv⟩
      · rcases ov with _ | values
        · rcases ih with ⟨b, hb⟩ | ⟨e, he⟩
          · exact Or.inl ⟨b, fun st => by
              rw [mfStep_gvNone _ _ _ _ _ _ hskip hgv]; exact hb st⟩
          · exact Or.inr ⟨e, fun st => by
              rw [mfStep_gvNone _ _ _ _ _ _ hskip hgv]; exact he st⟩
        · by_cases hkm : k = FieldK.txn_meta ∨ k = FieldK.txn_mask
          · have hkmeta : k = FieldK.txn_meta := by
              rcases hkm with h1 | h1
              · exact h1
              · exfalso
                rw [h1, getValues_maskNone r h] at hgv
                cases hgv
            subst hkmeta
            rcases metaScan_noMask r.txn_exclude values meta false with ⟨fc2, hfc2⟩
            have hsc : ∀ st, metaScan (FieldK.txn_meta == FieldK.txn_mask)
                r.txn_exclude values meta false st = Except.ok (fc2, st) := by
              intro st
              rw [show (FieldK.txn_meta == FieldK.txn_mask) = false from rfl]
              exact hfc2 st
            rcases hfc : fc2 with _ | _
            · refine Or.inl ⟨false, fun st => ?_⟩
              rw [mfStep_scanOk _ _ _ _ _ _ _ _ _ hskip hgv hkm ((hfc ▸ hsc) st)]
              rw [if_neg (fun hh => Bool.false_ne_true hh)]
            · rcases ih with ⟨b, hb⟩ | ⟨e, he⟩
              · refine Or.inl ⟨b, fun st => ?_⟩
                rw [mfStep_scanOk _ _ _ _ _ _ _ _ _ hskip hgv hkm ((hfc ▸ hsc) st)]
                rw [if_pos rfl]
                exact hb st
              · refine Or.inr ⟨e, fun st => ?_⟩
                rw [mfStep_scanOk _ _ _ _ _ _ _ _ _ hskip hgv hkm ((hfc ▸ hsc) st)]
                rw [if_pos rfl]
                exact he st
          · rcases heq : eqFieldCheck meta (resolveKey fm (FieldK.name k)) values
                with e | fc
            · exact Or.inr ⟨e, fun st => mfStep_eqErr _ _ _ _ _ _ _ _ hskip hgv hkm heq⟩
            · rcases hfc : fc with _ | _
              · refine Or.inl ⟨false, fun st => ?_⟩
                rw [mfStep_eqOk _ _ _ _ _ _ _ _ hskip hgv hkm (hfc ▸ heq)]
                rw [if_neg (fun hh => Bool.false_ne_true hh)]
              · rcases ih with ⟨b, hb⟩ | ⟨e, he⟩
                · refine Or.inl ⟨b, fun st => ?_⟩
                  rw [mfStep_eqOk _ _ _ _ _ _ _ _ hskip hgv hkm (hfc ▸ heq)]
                  rw [if_pos rfl]
                  exact hb st
                · refine Or.inr ⟨e, fun st => ?_⟩
                  rw [mfStep_eqOk _ _ _ _ _ _ _ _ hskip hgv hkm (hfc ▸ heq)]
                  rw [if_pos rfl]
                  exact he st

theorem matchFields_indep (meta : List (String × Val))
    (fm : String → Option String) (r : RuleMeta) :
    ∀ ks, (∀ st1 st2, matchFields meta fm r ks st1 = matchFields meta fm r ks st2)
      ∨ (∃ b, (∀ st, matchFields meta fm r ks st = Except.ok (b, st))
          ∧ (b = true → FieldK.txn_mask ∈ ks → r.txn_mask = none)) := by
  intro ks
  induction ks with
  | nil =>
    exact Or.inr ⟨true, fun st => rfl, fun _ hmem => absurd hmem (List.not_mem_nil _)⟩
  | cons k ks ih =>
    by_cases hskip : k = FieldK.method_account ∨ k = FieldK.target_account ∨
        k = FieldK.seperator ∨ k = FieldK.txn_exclude
    · have hkne : k ≠ FieldK.txn_mask := by
        rintro rfl
        rcases hskip with h | h | h | h <;> cases h
      rcases ih with h | ⟨b, hb, hmask⟩
      · exact Or.inl fun st1 st2 => by
          rw [mfStep_skip _ _ _ _ _ _ hskip, mfStep_skip _ _ _ _ _ _ hskip]; exact h st1 st2
      · refine Or.inr ⟨b, fun st => by rw [mfStep_skip _ _ _ _ _ _ hskip]; exact hb st,
          fun hbt hmem => ?_⟩
        rcases List.mem_cons.mp hmem with h1 | h1
        · exact absurd h1.symm hkne
        · exact hmask hbt h1
    · rcases hgv : getValues r k with e | ov
      · exact Or.inl fun st1 st2 => by
          rw [mfStep_gvErr _ _ _ _ _ _ _ hskip hgv, mfStep_gvErr _ _ _ _ _ _ _ hskip hgv]
      · rcases ov with _ | values
        · have hnone : k = FieldK.txn_mask → r.txn_mask = none := by
            rintro rfl
            rcases hmask2 : r.txn_mask with _ | v
            · rfl
            · exfalso
              have hthis : getValues r FieldK.txn_mask = Except.ok none := hgv
              unfold getValues at hthis
              rw [show RuleMeta.getF r FieldK.txn_mask = r.txn_mask from rfl,
                hmask2] at hthis
              dsimp only at hthis
              by_cases hsep : truthyOpt r.seperator = true
              · rw [if_pos hsep] at hthis
                rcases v with vs | vn
                · rcases hsv : r.seperator with _ | sv
                  · rw [hsv] at hsep; simp [truthyOpt] at hsep
                  · rcases sv with ss | sn <;> rw [hsv] at hthis <;> simp at hthis
                · simp at hthis
              · rw [if_neg hsep] at hthis
                simp at hthis
          rcases ih with h | ⟨b, hb, hmask⟩
          · exact Or.inl fun st1 st2 => by
              rw [mfStep_gvNone _ _ _ _ _ _ hskip hgv, mfStep_gvNone _ _ _ _ _ _ hskip hgv]
              exact h st1 st2
          · refine Or.inr ⟨b, fun st => by
              rw [mfStep_gvNone _ _ _ _ _ _ hskip hgv]; exact hb st, fun hbt hmem => ?_⟩
            rcases List.mem_cons.mp hmem with h1 | h1
            · exact hnone h1.symm
            · exact hmask hbt h1
        · by_cases hkm : k = FieldK.txn_meta ∨ k = FieldK.txn_mask
          · by_cases hkmask : k = FieldK.txn_mask
            · subst hkmask
              rcases metaScan_indep r.txn_exclude values meta false with hsc | hsc
              · left
                intro st1 st2
                rcases hr1 : metaScan (FieldK.txn_mask == FieldK.txn_mask)
                    r.txn_exclude values meta false st1 with e | p
                · rw [mfStep_scanErr _ _ _ _ _ _ _ _ hskip hgv hkm hr1,
                    mfStep_scanErr _ _ _ _ _ _ _ _ hskip hgv hkm
                      (by rw [show (FieldK.txn_mask == FieldK.txn_mask) = true from rfl] at hr1 ⊢
                          rw [← hsc st1 st2]; exact hr1)]
                · rcases p with ⟨fc, stp⟩
                  rw [mfStep_scanOk _ _ _ _ _ _ _ _ _ hskip hgv hkm hr1,
                    mfStep_scanOk _ _ _ _ _ _ _ _ _ hskip hgv hkm
                      (by rw [show (FieldK.txn_mask == FieldK.txn_mask) = true from rfl] at hr1 ⊢
                          rw [← hsc st1 st2]; exact hr1)]
              · refine Or.inr ⟨false, fun st => ?_, fun hbt _ => absurd hbt (by simp)⟩
                have hr1 : metaScan (FieldK.txn_mask == FieldK.txn_mask)
                    r.txn_exclude values meta false st = Except.ok (false, st) := by
                  rw [show (FieldK.txn_mask == FieldK.txn_mask) = true from rfl]
                  exact hsc st
                rw [mfStep_scanOk _ _ _ _ _ _ _ _ _ hskip hgv hkm hr1]
                rw [if_neg (fun hh => Bool.false_ne_true hh)]
            · have hkmeta : k = FieldK.txn_meta := by
                rcases hkm with h1 | h1
                · exact h1
                · exact absurd h1 hkmask
              subst hkmeta
              rcases metaScan_noMask r.txn_exclude values meta false with ⟨fc2, hfc2⟩
              have hsc : ∀ st, metaScan (FieldK.txn_meta == FieldK.txn_mask)
                  r.txn_exclude values meta false st = Except.ok (fc2, st) := by
                intro st
                rw [show (FieldK.txn_meta == FieldK.txn_mask) = false from rfl]
                exact hfc2 st
              rcases hfc : fc2 with _ | _
              · refine Or.inr ⟨false, fun st => ?_, fun hbt _ => absurd hbt (by simp)⟩
                rw [mfStep_scanOk _ _ _ _ _ _ _ _ _ hskip hgv hkm ((hfc ▸ hsc) st)]
                rw [if_neg (fun hh => Bool.false_ne_true hh)]
              · rcases ih with h | ⟨b, hb, hmask⟩
                · left
                  intro st1 st2
                  rw [mfStep_scanOk _ _ _ _ _ _ _ _ _ hskip hgv hkm ((hfc ▸ hsc) st1),
                    mfStep_scanOk _ _ _ _ _ _ _ _ _ hskip hgv hkm ((hfc ▸ hsc) st2)]
                  rw [if_pos rfl, if_pos rfl]
                  exact h st1 st2
                · refine Or.inr ⟨b, fun st => ?_, fun hbt hmem => ?_⟩
                  · rw [mfStep_scanOk _ _ _ _ _ _ _ _ _ hskip hgv hkm ((hfc ▸ hsc) st)]
                    rw [if_pos rfl]
                    exact hb st
                  · rcases List.mem_cons.mp hmem with h1 | h1
                    · cases h1
                    · exact hmask hbt h1
          · have hkne : k ≠ FieldK.txn_mask := fun hh => hkm (Or.inr hh)
            rcases heq : eqFieldCheck meta (resolveKey fm (FieldK.name k)) values
                with e | fc
            · exact Or.inl fun st1 st2 => by
                rw [mfStep_eqErr _ _ _ _ _ _ _ _ hskip hgv hkm heq,
                  mfStep_eqErr _ _ _ _ _ _ _ _ hskip hgv hkm heq]
            · rcases hfc : fc with _ | _
              · refine Or.inr ⟨false, fun st => ?_, fun hbt _ => absurd hbt (by simp)⟩
                rw [mfStep_eqOk _ _ _ _ _ _ _ _ hskip hgv hkm (hfc ▸ heq)]
                rw [if_neg (fun hh => Bool.false_ne_true hh)]
              · rcases ih with h | ⟨b, hb, hmask⟩
                · left
                  intro st1 st2
                  rw [mfStep_eqOk _ _ _ _ _ _ _ _ hskip hgv hkm (hfc ▸ heq),
                    mfStep_eqOk _ _ _ _ _ _ _ _ hskip hgv hkm (hfc ▸ heq)]
                  rw [if_pos rfl, if_pos rfl]
                  exact h st1 st2
                · refine Or.inr ⟨b, fun st => ?_, fun hbt hmem => ?_⟩
                  · rw [mfStep_eqOk _ _ _ _ _ _ _ _ hskip hgv hkm (hfc ▸ heq)]
                    rw [if_pos rfl]
                    exact hb st
                  · rcases List.mem_cons.mp hmem with h1 | h1
                    · exact absurd h1.symm hkne
                    · exact hmask hbt h1

theorem fieldKeySafe_res (meta : List (String × Val)) (fm : String → Option String)
    (k : FieldK) (h : fieldKeySafe meta fm k = true) :
    resolveKey fm (FieldK.name k) = none ∨
      ∃ key, resolveKey fm (FieldK.name k) = some key ∧
        (lookupMeta meta key).isSome = true := by
  unfold fieldKeySafe at h
  rcases hres : resolveKey fm (FieldK.name k) with _ | key
  · exact Or.inl rfl
  · rw [hres] at h
    exact Or.inr ⟨key, rfl, h⟩

theorem matchFields_total (meta : List (String × Val)) (fm : String → Option String)
    (r : RuleMeta) (hstr : strFields r = true)
    (hks : ∀ k : FieldK, fieldKeySafe meta fm k = true) :
    ∀ ks st, ∃ b st2, matchFields meta fm r ks st = Except.ok (b, st2) := by
  have hex : valIsStr r.txn_exclude = true := by
    have := strFields_getF r hstr FieldK.txn_exclude
    simpa using this
  intro ks
  induction ks with
  | nil => intro st; exact ⟨true, st, rfl⟩
  | cons k ks ih =>
    intro st
    by_cases hskip : k = FieldK.method_account ∨ k = FieldK.target_account ∨
        k = FieldK.seperator ∨ k = FieldK.txn_exclude
    · rcases ih st with ⟨b, st2, hb⟩
      exact ⟨b, st2, by rw [mfStep_skip _ _ _ _ _ _ hskip]; exact hb⟩
    · rcases getValues_total r hstr k with ⟨ov, hgv⟩
      rcases ov with _ | values
      · rcases ih st with ⟨b, st2, hb⟩
        exact ⟨b, st2, by rw [mfStep_gvNone _ _ _ _ _ _ hskip hgv]; exact hb⟩
      · by_cases hkm : k = FieldK.txn_meta ∨ k = FieldK.txn_mask
        · rcases metaScan_total (k == FieldK.txn_mask) r.txn_exclude hex values
              meta false st with ⟨fc, stm, hsc⟩
          rcases hfc : fc with _ | _
          · refine ⟨false, stm, ?_⟩
            rw [mfStep_scanOk _ _ _ _ _ _ _ _ _ hskip hgv hkm (hfc ▸ hsc)]
            rw [if_neg (fun hh => Bool.false_ne_true hh)]
          · rcases ih stm with ⟨b, st2, hb⟩
            refine ⟨b, st2, ?_⟩
            rw [mfStep_scanOk _ _ _ _ _ _ _ _ _ hskip hgv hkm (hfc ▸ hsc)]
            rw [if_pos rfl]
            exact hb
        · rcases eqFieldCheck_total meta _ (fieldKeySafe_res meta fm k (hks k)) values
              with ⟨fc, heq⟩
          rcases hfc : fc with _ | _
          · refine ⟨false, st, ?_⟩
            rw [mfStep_eqOk _ _ _ _ _ _ _ _ hskip hgv hkm (hfc ▸ heq)]
            rw [if_neg (fun hh => Bool.false_ne_true hh)]
          · rcases ih st with ⟨b, st2, hb⟩
            refine ⟨b, st2, ?_⟩
            rw [mfStep_eqOk _ _ _ _ _ _ _ _ hskip hgv hkm (hfc ▸ heq)]
            rw [if_pos rfl]
            exact hb

theorem pass1_char (meta : List (String × Val)) (fm : String → Option String) :
    ∀ rules, (∀ r ∈ rules, r.check = true) → p1safe meta fm rules →
    ∀ ans, pass1 meta fm rules ans =
      Except.ok { ans with
        method_account := lastMethodAccount meta fm rules ans.method_account } := by
  intro rules
  induction rules with
  | nil => intro _ _ ans; rfl
  | cons r rs ih =>
    intro hc hs ans
    have hrc : r.check = true := hc r (List.mem_cons_self r rs)
    have hcs : ∀ x ∈ rs, x.check = true := fun x hx => hc x (List.mem_cons_of_mem r hx)
    have hss : p1safe meta fm rs := fun hany => hs (by simp [List.any_cons, hany])
    simp only [pass1]
    rw [if_neg (by simp [hrc])]
    by_cases hm : r.isTxnMethod = true
    · rw [if_pos hm]
      rcases hres : resolveKey fm (FieldK.name FieldK.txn_method) with _ | key
      · have hmm : methodMatches meta fm r = false := by
          simp [methodMatches, hres]
        rw [ih hcs hss ans]
        simp [lastMethodAccount, hmm]
      · have hkey := hs (by simp [List.any_cons, hm])
        unfold mKeySafe at hkey
        rw [hres] at hkey
        rcases hlv : lookupMeta meta key with _ | mv
        · dsimp only at hkey
          rw [hlv] at hkey
          simp at hkey
        · dsimp only
          rw [hlv]
          dsimp only
          by_cases heq : r.txn_method = some mv
          · rw [if_pos heq]
            have hmm : methodMatches meta fm r = true := by
              simp [methodMatches, hres, hlv, heq]
            rw [ih hcs hss _]
            simp [lastMethodAccount, hmm, hm]
          · rw [if_neg heq]
            have hmm : methodMatches meta fm r = false := by
              simp [methodMatches, hres, hlv]
              exact heq
            rw [ih hcs hss ans]
            simp [lastMethodAccount, hmm]
    · rw [if_neg hm]
      rw [ih hcs hss ans]
      have hmb : r.isTxnMethod = false := by
        rcases hb : r.isTxnMethod with _ | _
        · rfl
        · exact absurd hb hm
      simp [lastMethodAccount, hmb]

theorem pass1_cons_congr (meta : List (String × Val)) (fm : String → Option String)
    (r : RuleMeta) (rs rs' : List RuleMeta)
    (h : ∀ ans, pass1 meta fm rs ans = pass1 meta fm rs' ans) :
    ∀ ans, pass1 meta fm (r :: rs) ans = pass1 meta fm (r :: rs') ans := by
  intro ans
  simp only [pass1]
  by_cases hck : r.check = false
  · rw [if_pos hck, if_pos hck]
  · rw [if_neg hck, if_neg hck]
    by_cases hm : r.isTxnMethod = true
    · rw [if_pos hm, if_pos hm]
      rcases resolveKey fm (FieldK.name FieldK.txn_method) with _ | key
      · exact h ans
      · dsimp only
        rcases lookupMeta meta key with _ | mv
        · rfl
        · dsimp only
          by_cases heq : r.txn_method = some mv
          · rw [if_pos heq, if_pos heq]; exact h _
          · rw [if_neg heq, if_neg heq]; exact h ans
    · rw [if_neg hm, if_neg hm]; exact h ans

theorem pass1_filterMethod (meta : List (String × Val)) (fm : String → Option String) :
    ∀ rules, (∀ r ∈ rules, r.check = true) → ∀ ans,
    pass1 meta fm rules ans =
      pass1 meta fm (rules.filter (fun r => r.isTxnMethod)) ans := by
  intro rules
  induction rules with
  | nil => intro _ ans; rfl
  | cons r rs ih =>
    intro hc ans
    have hrc : r.check = true := hc r (List.mem_cons_self r rs)
    have hcs : ∀ x ∈ rs, x.check = true := fun x hx => hc x (List.mem_cons_of_mem r hx)
    by_cases hm : r.isTxnMethod = true
    · rw [List.filter_cons_of_pos hm]
      exact pass1_cons_congr meta fm r rs _ (ih hcs) ans
    · rw [List.filter_cons_of_neg hm]
      simp only [pass1]
      rw [if_neg (by simp [hrc]), if_neg hm]
      exact ih hcs ans

theorem p2Step_method (meta : List (String × Val)) (fm : String → Option String)
    (r : RuleMeta) (rs : List RuleMeta) (ans : RuleMeta)
    (hm : r.isTxnMethod = true) :
    pass2 meta fm (r :: rs) ans =
      (match pass2 meta fm rs ans with
       | Except.error e => Except.error e
       | Except.ok (a, rs2) => Except.ok (a, r :: rs2)) := by
  simp only [pass2]
  rw [if_pos hm]

theorem p2Step_badCheck (meta : List (String × Val)) (fm : String → Option String)
    (r : RuleMeta) (rs : List RuleMeta) (ans : RuleMeta)
    (hm : ¬r.isTxnMethod = true) (hck : r.check = false) :
    pass2 meta fm (r :: rs) ans = Except.error PyErr.assertError := by
  simp only [pass2]
  rw [if_neg hm, if_pos hck]

theorem p2Step_mErr (meta : List (String × Val)) (fm : String → Option String)
    (r : RuleMeta) (rs : List RuleMeta) (ans : RuleMeta) (e : PyErr)
    (hm : ¬r.isTxnMethod = true) (hck : ¬r.check = false)
    (hmm : ruleMatch r meta fm = Except.error e) :
    pass2 meta fm (r :: rs) ans = Except.error e := by
  simp only [pass2]
  rw [if_neg hm, if_neg hck, hmm]

theorem p2Step_break (meta : List (String × Val)) (fm : String → Option String)
    (r : RuleMeta) (rs : List RuleMeta) (ans : RuleMeta)
    (hm : ¬r.isTxnMethod = true) (hck : ¬r.check = false)
    (hmm : ruleMatch r meta fm = Except.ok (true, some true)) :
    pass2 meta fm (r :: rs) ans =
      Except.ok ({ ans with is_mask := some true },
        { r with is_mask := some true } :: rs) := by
  simp only [pass2]
  rw [if_neg hm, if_neg hck, hmm]
  rfl

theorem p2Step_over (meta : List (String × Val)) (fm : String → Option String)
    (r : RuleMeta) (rs : List RuleMeta) (ans : RuleMeta) (st : Option Bool)
    (hm : ¬r.isTxnMethod = true) (hck : ¬r.check = false)
    (hmm : ruleMatch r meta fm = Except.ok (true, st)) (hst : ¬st = some true) :
    pass2 meta fm (r :: rs) ans =
      (match pass2 meta fm rs (applyRule ans r st) with
       | Except.error e => Except.error e
       | Except.ok (a, rs2) => Except.ok (a, { r with is_mask := st } :: rs2)) := by
  simp only [pass2]
  rw [if_neg hm, if_neg hck, hmm]
  dsimp only
  rw [if_pos rfl, if_neg hst]

theorem p2Step_skip (meta : List (String × Val)) (fm : String → Option String)
    (r : RuleMeta) (rs : List RuleMeta) (ans : RuleMeta) (st : Option Bool)
    (hm : ¬r.isTxnMethod = true) (hck : ¬r.check = false)
    (hmm : ruleMatch r meta fm = Except.ok (false, st)) :
    pass2 meta fm (r :: rs) ans =
      (match pass2 meta fm rs ans with
       | Except.error e => Except.error e
       | Except.ok (a, rs2) => Except.ok (a, { r with is_mask := st } :: rs2)) := by
  simp only [pass2]
  rw [if_neg hm, if_neg hck, hmm]
  rfl

theorem applyRule_isMask (ans r : RuleMeta) (st : Option Bool) :
    (applyRule ans r st).is_mask = st := by
  unfold applyRule copyFields
  rcases r.method_account with _ | v <;> rcases r.target_account with _ | w <;>
    dsimp only <;> split_ifs <;> rfl

theorem applyRule_method (ans r : RuleMeta) (st : Option Bool) :
    (applyRule ans r st).method_account =
      (if truthyOpt r.method_account = true then r.method_account
       else ans.method_account) := by
  unfold applyRule copyFields truthyOpt
  rcases r.method_account with _ | v <;> rcases r.target_account with _ | w <;>
    dsimp only <;> split_ifs <;> simp_all

theorem applyRule_target (ans r : RuleMeta) (st : Option Bool) :
    (applyRule ans r st).target_account =
      (if truthyOpt r.target_account = true then r.target_account
       else ans.target_account) := by
  unfold applyRule copyFields truthyOpt
  rcases r.method_account with _ | v <;> rcases r.target_account with _ | w <;>
    dsimp only <;> split_ifs <;> simp_all

theorem applyRule_getF (ans r : RuleMeta) (st : Option Bool) (k : FieldK)
    (h1 : k ≠ FieldK.method_account) (h2 : k ≠ FieldK.target_account) :
    (applyRule ans r st).getF k = r.getF k := by
  cases k <;> first
    | exact absurd rfl h1
    | exact absurd rfl h2
    | rfl

theorem applyRule_maskIrrel (ans r : RuleMeta) (x : Option Bool) (st : Option Bool) :
    applyRule ans { r with is_mask := x } st = applyRule ans r st := rfl

theorem forall₂_stepRel_refl : ∀ l : List RuleMeta, List.Forall₂ stepRel l l := by
  intro l
  induction l with
  | nil => exact List.Forall₂.nil
  | cons r rs ih => exact List.Forall₂.cons (stepRel_refl r) ih

theorem mapFst_wrap (X : Except PyErr (RuleMeta × List RuleMeta))
    (f : List RuleMeta → List RuleMeta) :
    (Except.map Prod.fst
      (match X with
       | Except.error e => Except.error e
       | Except.ok (a, rs2) => Except.ok (a, f rs2)))
    = Except.map Prod.fst X := by
  rcases X with e | ⟨a, rs⟩ <;> rfl

theorem ruleMatch_maskNoneState (meta : List (String × Val))
    (fm : String → Option String) (r : RuleMeta) (fc : Bool) (st : Option Bool)
    (h : r.txn_mask = none)
    (hm : ruleMatch r meta fm = Except.ok (fc, st)) : st = r.is_mask := by
  rcases matchFields_noMaskId meta fm r h RuleMeta.fieldList with ⟨b, hb⟩ | ⟨e, he⟩
  · unfold ruleMatch at hm
    rw [hb r.is_mask] at hm
    injection hm with hm1
    injection hm1 with hm2 hm3
    exact hm3.symm
  · unfold ruleMatch at hm
    rw [he r.is_mask] at hm
    cases hm

theorem pass2_truthy (meta : List (String × Val)) (fm : String → Option String) :
    ∀ rules ans a rs2, pass2 meta fm rules ans = Except.ok (a, rs2) →
    truthyOpt ans.method_account = true → truthyOpt ans.target_account = true →
    truthyOpt a.method_account = true ∧ truthyOpt a.target_account = true := by
  intro rules
  induction rules with
  | nil =>
    intro ans a rs2 hp hm ht
    injection hp with hp1
    injection hp1 with hp2 hp3
    rw [← hp2]
    exact ⟨hm, ht⟩
  | cons r rs ih =>
    intro ans a rs2 hp hm ht
    by_cases hmeth : r.isTxnMethod = true
    · rw [p2Step_method meta fm r rs ans hmeth] at hp
      rcases hrec : pass2 meta fm rs ans with e | ⟨a2, rs3⟩
      · rw [hrec] at hp; cases hp
      · rw [hrec] at hp
        dsimp only at hp
        injection hp with hp1
        injection hp1 with hp2 hp3
        rw [← hp2]
        exact ih ans a2 rs3 hrec hm ht
    · by_cases hck : r.check = false
      · rw [p2Step_badCheck meta fm r rs ans hmeth hck] at hp
        cases hp
      · rcases hmm : ruleMatch r meta fm with e | ⟨fc, st⟩
        · rw [p2Step_mErr meta fm r rs ans e hmeth hck hmm] at hp
          cases hp
        · rcases hfc : fc with _ | _
          · rw [p2Step_skip meta fm r rs ans st hmeth hck (hfc ▸ hmm)] at hp
            rcases hrec : pass2 meta fm rs ans with e | ⟨a2, rs3⟩
            · rw [hrec] at hp; cases hp
            · rw [hrec] at hp
              dsimp only at hp
              injection hp with hp1
              injection hp1 with hp2 hp3
              rw [← hp2]
              exact ih ans a2 rs3 hrec hm ht
          · by_cases hst : st = some true
            · rw [p2Step_break meta fm r rs ans hmeth hck (hst ▸ hfc ▸ hmm)] at hp
              injection hp with hp1
              injection hp1 with hp2 hp3
              rw [← hp2]
              exact ⟨hm, ht⟩
            · rw [p2Step_over meta fm r rs ans st hmeth hck (hfc ▸ hmm) hst] at hp
              rcases hrec : pass2 meta fm rs (applyRule ans r st) with e | ⟨a2, rs3⟩
              · rw [hrec] at hp; cases hp
              · rw [hrec] at hp
                dsimp only at hp
                injection hp with hp1
                injection hp1 with hp2 hp3
                rw [← hp2]
                refine ih (applyRule ans r st) a2 rs3 hrec ?_ ?_
                · rw [applyRule_method]
                  by_cases hq : truthyOpt r.method_account = true
                  · rw [if_pos hq]; exact hq
                  · rw [if_neg hq]; exact hm
                · rw [applyRule_target]
                  by_cases hq : truthyOpt r.target_account = true
                  · rw [if_pos hq]; exact hq
                  · rw [if_neg hq]; exact ht

theorem pass2_skipAll (meta : List (String × Val)) (fm : String → Option String) :
    ∀ rules, (∀ r ∈ rules, r.isTxnMethod = true ∨
      (r.check = true ∧ ∃ st, ruleMatch r meta fm = Except.ok (false, st))) →
    ∀ ans, ∃ rs2, pass2 meta fm rules ans = Except.ok (ans, rs2) := by
  intro rules
  induction rules with
  | nil => intro _ ans; exact ⟨[], rfl⟩
  | cons r rs ih =>
    intro h ans
    have hr := h r (List.mem_cons_self r rs)
    have hrs : ∀ x ∈ rs, x.isTxnMethod = true ∨
        (x.check = true ∧ ∃ st, ruleMatch x meta fm = Except.ok (false, st)) :=
      fun x hx => h x (List.mem_cons_of_mem r hx)
    rcases ih hrs ans with ⟨rs2, hrec⟩
    by_cases hmeth : r.isTxnMethod = true
    · refine ⟨r :: rs2, ?_⟩
      rw [p2Step_method meta fm r rs ans hmeth, hrec]
    · rcases hr with hmeth2 | ⟨hck, st, hmm⟩
      · exact absurd hmeth2 hmeth
      · refine ⟨{ r with is_mask := st } :: rs2, ?_⟩
        rw [p2Step_skip meta fm r rs ans st hmeth (by simp [hck]) hmm, hrec]

theorem pass2_append (meta : List (String × Val)) (fm : String → Option String) :
    ∀ l1 l2 ans, ¬ans.is_mask = some true →
    pass2 meta fm (l1 ++ l2) ans =
      (match pass2 meta fm l1 ans with
       | Except.error e => Except.error e
       | Except.ok (a, rs1) =>
         if a.is_mask = some true then Except.ok (a, rs1 ++ l2)
         else
           (match pass2 meta fm l2 a with
            | Except.error e => Except.error e
            | Except.ok (a2, rs2) => Except.ok (a2, rs1 ++ rs2))) := by
  intro l1
  induction l1 with
  | nil =>
    intro l2 ans hans
    have hnil : pass2 meta fm ([] : List RuleMeta) ans = Except.ok (ans, []) := rfl
    rw [hnil]
    dsimp only
    rw [if_neg hans]
    simp only [List.nil_append]
    rcases h2 : pass2 meta fm l2 ans with e | ⟨a2, rs2⟩
    · rfl
    · rfl
  | cons r l1 ih =>
    intro l2 ans hans
    by_cases hmeth : r.isTxnMethod = true
    · rw [show (r :: l1) ++ l2 = r :: (l1 ++ l2) from rfl]
      rw [p2Step_method meta fm r (l1 ++ l2) ans hmeth,
        p2Step_method meta fm r l1 ans hmeth]
      rw [ih l2 ans hans]
      rcases pass2 meta fm l1 ans with e | ⟨a, rs1⟩
      · rfl
      · dsimp only
        by_cases hmask : a.is_mask = some true
        · rw [if_pos hmask, if_pos hmask]
          rfl
        · rw [if_neg hmask, if_neg hmask]
          rcases pass2 meta fm l2 a with e | ⟨a2, rs2⟩
          · rfl
          · rfl
    · by_cases hck : r.check = false
      · rw [show (r :: l1) ++ l2 = r :: (l1 ++ l2) from rfl]
        rw [p2Step_badCheck meta fm r (l1 ++ l2) ans hmeth hck,
          p2Step_badCheck meta fm r l1 ans hmeth hck]
      · rcases hmm : ruleMatch r meta fm with e | ⟨fc, st⟩
        · rw [show (r :: l1) ++ l2 = r :: (l1 ++ l2) from rfl]
          rw [p2Step_mErr meta fm r (l1 ++ l2) ans e hmeth hck hmm,
            p2Step_mErr meta fm r l1 ans e hmeth hck hmm]
        · rcases hfc : fc with _ | _
          · rw [show (r :: l1) ++ l2 = r :: (l1 ++ l2) from rfl]
            rw [p2Step_skip meta fm r (l1 ++ l2) ans st hmeth hck (hfc ▸ hmm),
              p2Step_skip meta fm r l1 ans st hmeth hck (hfc ▸ hmm)]
            rw [ih l2 ans hans]
            rcases pass2 meta fm l1 ans with e | ⟨a, rs1⟩
            · rfl
            · dsimp only
              by_cases hmask : a.is_mask = some true
              · rw [if_pos hmask, if_pos hmask]
                rfl
              · rw [if_neg hmask, if_neg hmask]
                rcases pass2 meta fm l2 a with e | ⟨a2, rs2⟩
                · rfl
                · rfl
          · by_cases hst : st = some true
            · rw [show (r :: l1) ++ l2 = r :: (l1 ++ l2) from rfl]
              rw [p2Step_break meta fm r (l1 ++ l2) ans hmeth hck (hst ▸ hfc ▸ hmm),
                p2Step_break meta fm r l1 ans hmeth hck (hst ▸ hfc ▸ hmm)]
              dsimp only
              rw [if_pos rfl]
              rfl
            · rw [show (r :: l1) ++ l2 = r :: (l1 ++ l2) from rfl]
              rw [p2Step_over meta fm r (l1 ++ l2) ans st hmeth hck (hfc ▸ hmm) hst,
                p2Step_over meta fm r l1 ans st hmeth hck (hfc ▸ hmm) hst]
              have hans2 : ¬(applyRule ans r st).is_mask = some true := by
                rw [applyRule_isMask]
                exact hst
              rw [ih l2 (applyRule ans r st) hans2]
              rcases pass2 meta fm l1 (applyRule ans r st) with e | ⟨a, rs1⟩
              · rfl
              · dsimp only
                by_cases hmask : a.is_mask = some true
                · rw [if_pos hmask, if_pos hmask]
                  rfl
                · rw [if_neg hmask, if_neg hmask]
                  rcases pass2 meta fm l2 a with e | ⟨a2, rs2⟩
                  · rfl
                  · rfl

theorem pass2_noBreak (meta : List (String × Val)) (fm : String → Option String) :
    ∀ l, (∀ s ∈ l, s.isTxnMethod = true ∨
      (s.check = true ∧ ∃ b st, ruleMatch s meta fm = Except.ok (b, st) ∧
        ¬st = some true)) →
    ∀ ans, ¬ans.is_mask = some true →
      ∃ a rs, pass2 meta fm l ans = Except.ok (a, rs) ∧ ¬a.is_mask = some true := by
  intro l
  induction l with
  | nil => intro _ ans hans; exact ⟨ans, [], rfl, hans⟩
  | cons r rs ih =>
    intro h ans hans
    have hr := h r (List.mem_cons_self r rs)
    have hrs : ∀ x ∈ rs, x.isTxnMethod = true ∨
        (x.check = true ∧ ∃ b st, ruleMatch x meta fm = Except.ok (b, st) ∧
          ¬st = some true) :=
      fun x hx => h x (List.mem_cons_of_mem r hx)
    by_cases hmeth : r.isTxnMethod = true
    · rcases ih hrs ans hans with ⟨a, rs2, hp, ha⟩
      exact ⟨a, r :: rs2, by rw [p2Step_method meta fm r rs ans hmeth, hp], ha⟩
    · rcases hr with hmeth2 | ⟨hck, b, st, hmm, hst⟩
      · exact absurd hmeth2 hmeth
      · rcases hb : b with _ | _
        · rcases ih hrs ans hans with ⟨a, rs2, hp, ha⟩
          exact ⟨a, { r with is_mask := st } :: rs2, by
            rw [p2Step_skip meta fm r rs ans st hmeth (by simp [hck]) (hb ▸ hmm), hp], ha⟩
        · have hans2 : ¬(applyRule ans r st).is_mask = some true := by
            rw [applyRule_isMask]; exact hst
          rcases ih hrs (applyRule ans r st) hans2 with ⟨a, rs2, hp, ha⟩
          exact ⟨a, { r with is_mask := st } :: rs2, by
            rw [p2Step_over meta fm r rs ans st hmeth (by simp [hck]) (hb ▸ hmm) hst,
              hp], ha⟩

theorem pass2_fstFilter (meta : List (String × Val)) (fm : String → Option String) :
    ∀ rules ans,
    Except.map Prod.fst (pass2 meta fm rules ans)
      = Except.map Prod.fst
          (pass2 meta fm (rules.filter (fun r => !r.isTxnMethod)) ans) := by
  intro rules
  induction rules with
  | nil => intro ans; rfl
  | cons r rs ih =>
    intro ans
    by_cases hmeth : r.isTxnMethod = true
    · rw [List.filter_cons_of_neg (by simp [hmeth])]
      rw [p2Step_method meta fm r rs ans hmeth]
      rw [mapFst_wrap (pass2 meta fm rs ans) (fun l => r :: l)]
      exact ih ans
    · rw [List.filter_cons_of_pos (by simp [hmeth])]
      by_cases hck : r.check = false
      · rw [p2Step_badCheck meta fm r rs ans hmeth hck,
          p2Step_badCheck meta fm r (rs.filter (fun x => !x.isTxnMethod)) ans hmeth hck]
      · rcases hmm : ruleMatch r meta fm with e | ⟨fc, st⟩
        · rw [p2Step_mErr meta fm r rs ans e hmeth hck hmm,
            p2Step_mErr meta fm r (rs.filter (fun x => !x.isTxnMethod)) ans e hmeth hck hmm]
        · rcases hfc : fc with _ | _
          · rw [p2Step_skip meta fm r rs ans st hmeth hck (hfc ▸ hmm),
              p2Step_skip meta fm r (rs.filter (fun x => !x.isTxnMethod)) ans st
                hmeth hck (hfc ▸ hmm)]
            rw [mapFst_wrap (pass2 meta fm rs ans)
                (fun l => { r with is_mask := st } :: l),
              mapFst_wrap (pass2 meta fm (rs.filter (fun x => !x.isTxnMethod)) ans)
                (fun l => { r with is_mask := st } :: l)]
            exact ih ans
          · by_cases hst : st = some true
            · rw [p2Step_break meta fm r rs ans hmeth hck (hst ▸ hfc ▸ hmm),
                p2Step_break meta fm r (rs.filter (fun x => !x.isTxnMethod)) ans
                  hmeth hck (hst ▸ hfc ▸ hmm)]
              rfl
            · rw [p2Step_over meta fm r rs ans st hmeth hck (hfc ▸ hmm) hst,
                p2Step_over meta fm r (rs.filter (fun x => !x.isTxnMethod)) ans st
                  hmeth hck (hfc ▸ hmm) hst]
              rw [mapFst_wrap (pass2 meta fm rs (applyRule ans r st))
                  (fun l => { r with is_mask := st } :: l),
                mapFst_wrap
                  (pass2 meta fm (rs.filter (fun x => !x.isTxnMethod))
                    (applyRule ans r st))
                  (fun l => { r with is_mask := st } :: l)]
              exact ih (applyRule ans r st)

theorem pass2_frame (meta : List (String × Val)) (fm : String → Option String) :
    ∀ rules ans a rs2, pass2 meta fm rules ans = Except.ok (a, rs2) →
      List.Forall₂ stepRel rules rs2 := by
  intro rules
  induction rules with
  | nil =>
    intro ans a rs2 hp
    injection hp with hp1
    injection hp1 with hp2 hp3
    rw [← hp3]
    exact List.Forall₂.nil
  | cons r rs ih =>
    intro ans a rs2 hp
    by_cases hmeth : r.isTxnMethod = true
    · rw [p2Step_method meta fm r rs ans hmeth] at hp
      rcases hrec : pass2 meta fm rs ans with e | ⟨a2, rs3⟩
      · rw [hrec] at hp; cases hp
      · rw [hrec] at hp
        dsimp only at hp
        injection hp with hp1
        injection hp1 with hp2 hp3
        rw [← hp3]
        exact List.Forall₂.cons (stepRel_refl r) (ih ans a2 rs3 hrec)
    · by_cases hck : r.check = false
      · rw [p2Step_badCheck meta fm r rs ans hmeth hck] at hp; cases hp
      · rcases hmm : ruleMatch r meta fm with e | ⟨fc, st⟩
        · rw [p2Step_mErr meta fm r rs ans e hmeth hck hmm] at hp; cases hp
        · have hstep : stepRel r { r with is_mask := st } := by
            refine ⟨rfl, fun hmask => ?_⟩
            exact ruleMatch_maskNoneState meta fm r fc st hmask hmm
          rcases hfc : fc with _ | _
          · rw [p2Step_skip meta fm r rs ans st hmeth hck (hfc ▸ hmm)] at hp
            rcases hrec : pass2 meta fm rs ans with e | ⟨a2, rs3⟩
            · rw [hrec] at hp; cases hp
            · rw [hrec] at hp
              dsimp only at hp
              injection hp with hp1
              injection hp1 with hp2 hp3
              rw [← hp3]
              exact List.Forall₂.cons hstep (ih ans a2 rs3 hrec)
          · by_cases hst : st = some true
            · rw [hst] at hstep hmm
              rw [p2Step_break meta fm r rs ans hmeth hck (hfc ▸ hmm)] at hp
              injection hp with hp1
              injection hp1 with hp2 hp3
              rw [← hp3]
              exact List.Forall₂.cons hstep (forall₂_stepRel_refl rs)
            · rw [p2Step_over meta fm r rs ans st hmeth hck (hfc ▸ hmm) hst] at hp
              rcases hrec : pass2 meta fm rs (applyRule ans r st) with e | ⟨a2, rs3⟩
              · rw [hrec] at hp; cases hp
              · rw [hrec] at hp
                dsimp only at hp
                injection hp with hp1
                injection hp1 with hp2 hp3
                rw [← hp3]
                exact List.Forall₂.cons hstep (ih (applyRule ans r st) a2 rs3 hrec)

theorem pass2_stepIndep (meta : List (String × Val)) (fm : String → Option String) :
    ∀ rules rules', List.Forall₂ stepRel rules rules' →
    ∀ ans, Except.map Prod.fst (pass2 meta fm rules ans)
      = Except.map Prod.fst (pass2 meta fm rules' ans) := by
  intro rules rules' hF
  induction hF with
  | nil => intro ans; rfl
  | cons hrel htail ih =>
    rename_i r r' rsa rsb
    intro ans
    obtain ⟨heq, hmaskpres⟩ := hrel
    have hmeth' : r'.isTxnMethod = r.isTxnMethod := by
      rw [heq]; exact isTxnMethod_maskIrrel r r'.is_mask
    have hck' : r'.check = r.check := by
      rw [heq]; exact check_maskIrrel r r'.is_mask
    have hrm' : ruleMatch r' meta fm
        = matchFields meta fm r RuleMeta.fieldList r'.is_mask := by
      rw [ruleMatch, heq, matchFields_maskIrrel]
    have happly : ∀ st, applyRule ans r' st = applyRule ans r st := by
      intro st; rw [heq, applyRule_maskIrrel]
    by_cases hmeth : r.isTxnMethod = true
    · rw [p2Step_method meta fm r rsa ans hmeth,
        p2Step_method meta fm r' rsb ans (by rw [hmeth']; exact hmeth)]
      rw [mapFst_wrap (pass2 meta fm rsa ans) (fun l => r :: l),
        mapFst_wrap (pass2 meta fm rsb ans) (fun l => r' :: l)]
      exact ih ans
    · have hmethb : ¬r'.isTxnMethod = true := by rw [hmeth']; exact hmeth
      by_cases hck : r.check = false
      · rw [p2Step_badCheck meta fm r rsa ans hmeth hck,
          p2Step_badCheck meta fm r' rsb ans hmethb (by rw [hck']; exact hck)]
      · have hckb : ¬r'.check = false := by rw [hck']; exact hck
        rcases matchFields_indep meta fm r RuleMeta.fieldList with hind | ⟨b, hb, hbm⟩
        · have hrr : ruleMatch r' meta fm = ruleMatch r meta fm := by
            rw [hrm', ruleMatch]
            exact hind r'.is_mask r.is_mask
          rcases hmm : ruleMatch r meta fm with e | ⟨fc, st⟩
          · rw [p2Step_mErr meta fm r rsa ans e hmeth hck hmm,
              p2Step_mErr meta fm r' rsb ans e hmethb hckb (hrr.trans hmm)]
          · rcases hfc : fc with _ | _
            · rw [p2Step_skip meta fm r rsa ans st hmeth hck (hfc ▸ hmm),
                p2Step_skip meta fm r' rsb ans st hmethb hckb (hfc ▸ hrr.trans hmm)]
              rw [mapFst_wrap (pass2 meta fm rsa ans)
                  (fun l => { r with is_mask := st } :: l),
                mapFst_wrap (pass2 meta fm rsb ans)
                  (fun l => { r' with is_mask := st } :: l)]
              exact ih ans
            · by_cases hst : st = some true
              · rw [p2Step_break meta fm r rsa ans hmeth hck (hst ▸ hfc ▸ hmm),
                  p2Step_break meta fm r' rsb ans hmethb hckb
                    (hst ▸ hfc ▸ hrr.trans hmm)]
                rfl
              · rw [p2Step_over meta fm r rsa ans st hmeth hck (hfc ▸ hmm) hst,
                  p2Step_over meta fm r' rsb ans st hmethb hckb
                    (hfc ▸ hrr.trans hmm) hst]
                rw [mapFst_wrap (pass2 meta fm rsa (applyRule ans r st))
                    (fun l => { r with is_mask := st } :: l),
                  mapFst_wrap (pass2 meta fm rsb (applyRule ans r' st))
                    (fun l => { r' with is_mask := st } :: l)]
                rw [happly st]
                exact ih (applyRule ans r st)
        · have hmr : ruleMatch r meta fm = Except.ok (b, r.is_mask) := by
            rw [ruleMatch]; exact hb r.is_mask
          have hmr' : ruleMatch r' meta fm = Except.ok (b, r'.is_mask) := by
            rw [hrm']; exact hb r'.is_mask
          rcases hb2 : b with _ | _
          · rw [p2Step_skip meta fm r rsa ans r.is_mask hmeth hck (hb2 ▸ hmr),
              p2Step_skip meta fm r' rsb ans r'.is_mask hmethb hckb (hb2 ▸ hmr')]
            rw [mapFst_wrap (pass2 meta fm rsa ans)
                (fun l => { r with is_mask := r.is_mask } :: l),
              mapFst_wrap (pass2 meta fm rsb ans)
                (fun l => { r' with is_mask := r'.is_mask } :: l)]
            exact ih ans
          · have hmaskn : r.txn_mask = none := hbm hb2 (fieldK_mem FieldK.txn_mask)
            have hsame : r'.is_mask = r.is_mask := hmaskpres hmaskn
            rw [hsame] at hmr'
            by_cases hst : r.is_mask = some true
            · rw [p2Step_break meta fm r rsa ans hmeth hck (hst ▸ hb2 ▸ hmr),
                p2Step_break meta fm r' rsb ans hmethb hckb (hst ▸ hb2 ▸ hmr')]
              rfl
            · rw [p2Step_over meta fm r rsa ans r.is_mask hmeth hck (hb2 ▸ hmr) hst,
                p2Step_over meta fm r' rsb ans r.is_mask hmethb hckb (hb2 ▸ hmr') hst]
              rw [mapFst_wrap (pass2 meta fm rsa (applyRule ans r r.is_mask))
                  (fun l => { r with is_mask := r.is_mask } :: l),
                mapFst_wrap (pass2 meta fm rsb (applyRule ans r' r.is_mask))
                  (fun l => { r' with is_mask := r.is_mask } :: l)]
              rw [happly r.is_mask]
              exact ih (applyRule ans r r.is_mask)

theorem keysSafe_all (meta : List (String × Val)) (fm : String → Option String)
    (h : keysSafeB meta fm = true) (k : FieldK) : fieldKeySafe meta fm k = true := by
  exact List.all_eq_true.mp h k (fieldK_mem k)

theorem ruleMatch_total (meta : List (String × Val)) (fm : String → Option String)
    (r : RuleMeta) (hstr : strFields r = true) (hks : keysSafeB meta fm = true) :
    ∃ b st, ruleMatch r meta fm = Except.ok (b, st) := by
  rcases matchFields_total meta fm r hstr (keysSafe_all meta fm hks)
      RuleMeta.fieldList r.is_mask with ⟨b, st2, hb⟩
  exact ⟨b, st2, hb⟩

theorem pass2_total (meta : List (String × Val)) (fm : String → Option String)
    (hks : keysSafeB meta fm = true) :
    ∀ rules, (∀ r ∈ rules, r.check = true ∧ strFields r = true) →
    ∀ ans, ∃ a rs2, pass2 meta fm rules ans = Except.ok (a, rs2) := by
  intro rules
  induction rules with
  | nil => intro _ ans; exact ⟨ans, [], rfl⟩
  | cons r rs ih =>
    intro h ans
    rcases h r (List.mem_cons_self r rs) with ⟨hck, hstr⟩
    have hrs : ∀ x ∈ rs, x.check = true ∧ strFields x = true :=
      fun x hx => h x (List.mem_cons_of_mem r hx)
    by_cases hmeth : r.isTxnMethod = true
    · rcases ih hrs ans with ⟨a, rs2, hp⟩
      exact ⟨a, r :: rs2, by rw [p2Step_method meta fm r rs ans hmeth, hp]⟩
    · rcases ruleMatch_total meta fm r hstr hks with ⟨b, st, hmm⟩
      rcases hb : b with _ | _
      · rcases ih hrs ans with ⟨a, rs2, hp⟩
        exact ⟨a, { r with is_mask := st } :: rs2, by
          rw [p2Step_skip meta fm r rs ans st hmeth (by simp [hck]) (hb ▸ hmm), hp]⟩
      · by_cases hst : st = some true
        · exact ⟨{ ans with is_mask := some true },
            { r with is_mask := some true } :: rs,
            p2Step_break meta fm r rs ans hmeth (by simp [hck]) (hst ▸ hb ▸ hmm)⟩
        · rcases ih hrs (applyRule ans r st) with ⟨a, rs2, hp⟩
          exact ⟨a, { r with is_mask := st } :: rs2, by
            rw [p2Step_over meta fm r rs ans st hmeth (by simp [hck])
              (hb ▸ hmm) hst, hp]⟩

theorem lastMethodAccount_truthy (meta : List (String × Val))
    (fm : String → Option String) :
    ∀ rules acc, truthyOpt acc = true →
      truthyOpt (lastMethodAccount meta fm rules acc) = true := by
  intro rules
  induction rules with
  | nil => intro acc h; exact h
  | cons r rs ih =>
    intro acc h
    by_cases hc : (r.isTxnMethod && methodMatches meta fm r) = true
    · rw [lastMethodAccount, if_pos hc]
      have hmeth : r.isTxnMethod = true := (Bool.and_eq_true _ _ |>.mp hc).1
      exact ih r.method_account (isTxnMethod_truthyAccounts r hmeth).2
    · rw [lastMethodAccount, if_neg hc]
      exact ih acc h

theorem lastMethodAccount_noMatch (meta : List (String × Val))
    (fm : String → Option String) :
    ∀ rules, (∀ r ∈ rules, r.isTxnMethod = true → methodMatches meta fm r = false) →
    ∀ acc, lastMethodAccount meta fm rules acc = acc := by
  intro rules
  induction rules with
  | nil => intro _ acc; rfl
  | cons r rs ih =>
    intro h acc
    have hrs : ∀ x ∈ rs, x.isTxnMethod = true → methodMatches meta fm x = false :=
      fun x hx => h x (List.mem_cons_of_mem r hx)
    have hc : ¬(r.isTxnMethod && methodMatches meta fm r) = true := by
      intro hcontra
      rcases Bool.and_eq_true _ _ |>.mp hcontra with ⟨h1, h2⟩
      rw [h r (List.mem_cons_self r rs) h1] at h2
      cases h2
    rw [lastMethodAccount, if_neg hc]
    exact ih hrs acc

theorem pass1_stepIndep (meta : List (String × Val)) (fm : String → Option String) :
    ∀ rules rules', List.Forall₂ stepRel rules rules' →
    ∀ ans, pass1 meta fm rules ans = pass1 meta fm rules' ans := by
  intro rules rules' hF
  induction hF with
  | nil => intro ans; rfl
  | cons hrel htail ih =>
    rename_i r r' rsa rsb
    intro ans
    obtain ⟨heq, _⟩ := hrel
    have hmeth' : r'.isTxnMethod = r.isTxnMethod := by
      rw [heq]; exact isTxnMethod_maskIrrel r r'.is_mask
    have hck' : r'.check = r.check := by
      rw [heq]; exact check_maskIrrel r r'.is_mask
    have htm : r'.txn_method = r.txn_method := by rw [heq]
    have hmacc : r'.method_account = r.method_account := by rw [heq]
    simp only [pass1]
    rw [hmeth', hck', htm, hmacc]
    by_cases hck : r.check = false
    · rw [if_pos hck, if_pos hck]
    · rw [if_neg hck, if_neg hck]
      by_cases hmeth : r.isTxnMethod = true
      · rw [if_pos hmeth, if_pos hmeth]
        rcases resolveKey fm (FieldK.name FieldK.txn_method) with _ | key
        · exact ih ans
        · dsimp only
          rcases lookupMeta meta key with _ | mv
          · rfl
          · dsimp only
            by_cases heqv : r.txn_method = some mv
            · rw [if_pos heqv, if_pos heqv]
              exact ih _
            · rw [if_neg heqv, if_neg heqv]
              exact ih ans
      · rw [if_neg hmeth, if_neg hmeth]
        exact ih ans

theorem matchFull_eq (R : Ruler) (meta : List (String × Val))
    (fm : String → Option String) (dm dp : Val)
    (hdm : R.config.default_method_account = some dm)
    (hdp : R.config.default_target_account = some dp)
    (hdmt : dm.truthy = true) (hdpt : dp.truthy = true)
    (ans1 : RuleMeta)
    (hp1 : pass1 meta fm R.rules
      { method_account := some dm, target_account := some dp } = Except.ok ans1)
    (h1m : truthyOpt ans1.method_account = true)
    (h1t : truthyOpt ans1.target_account = true)
    (a : RuleMeta) (rs2 : List RuleMeta)
    (hp2 : pass2 meta fm R.rules ans1 = Except.ok (a, rs2))
    (ham : truthyOpt a.method_account = true)
    (hat : truthyOpt a.target_account = true) :
    R.matchFull meta fm = Except.ok (a, rs2) := by
  unfold Ruler.matchFull cfgMinus cfgPlus
  rw [hdm, hdp]
  dsimp only
  rw [if_neg (by simp [truthyOpt, hdmt]), if_neg (by simp [truthyOpt, hdpt])]
  rw [hp1]
  dsimp only
  rw [if_neg (by simp [h1m]), if_neg (by simp [h1t])]
  rw [hp2]
  dsimp only
  rw [if_neg (by simp [ham]), if_neg (by simp [hat])]

theorem matchFull_inv (R : Ruler) (meta : List (String × Val))
    (fm : String → Option String) (a : RuleMeta) (rs2 : List RuleMeta)
    (h : R.matchFull meta fm = Except.ok (a, rs2)) :
    ∃ dm dp ans1, R.config.default_method_account = some dm ∧
      R.config.default_target_account = some dp ∧
      pass1 meta fm R.rules
        { method_account := some dm, target_account := some dp } = Except.ok ans1 ∧
      pass2 meta fm R.rules ans1 = Except.ok (a, rs2) := by
  unfold Ruler.matchFull cfgMinus cfgPlus at h
  rcases hdm : R.config.default_method_account with _ | dm
  · rw [hdm] at h; cases h
  · rw [hdm] at h
    dsimp only at h
    rcases hdp : R.config.default_target_account with _ | dp
    · rw [hdp] at h; cases h
    · rw [hdp] at h
      dsimp only at h
      by_cases h1 : truthyOpt (some dm) = false
      · rw [if_pos h1] at h; cases h
      · rw [if_neg h1] at h
        by_cases h2 : truthyOpt (some dp) = false
        · rw [if_pos h2] at h; cases h
        · rw [if_neg h2] at h
          rcases hp1 : pass1 meta fm R.rules
              { method_account := some dm, target_account := some dp }
              with e | ans1
          · rw [hp1] at h; cases h
          · rw [hp1] at h
            dsimp only at h
            by_cases h3 : truthyOpt ans1.method_account = false
            · rw [if_pos h3] at h; cases h
            · rw [if_neg h3] at h
              by_cases h4 : truthyOpt ans1.target_account = false
              · rw [if_pos h4] at h; cases h
              · rw [if_neg h4] at h
                rcases hp2 : pass2 meta fm R.rules ans1 with e | ⟨a2, rsx⟩
                · rw [hp2] at h; cases h
                · rw [hp2] at h
                  dsimp only at h
                  by_cases h5 : truthyOpt a2.method_account = false
                  · rw [if_pos h5] at h; cases h
                  · rw [if_neg h5] at h
                    by_cases h6 : truthyOpt a2.target_account = false
                    · rw [if_pos h6] at h; cases h
                    · rw [if_neg h6] at h
                      injection h with hh
                      injection hh with hh1 hh2
                      exact ⟨dm, dp, ans1, rfl, rfl, hp1, by rw [hp2, hh1, hh2]⟩

theorem matchMeta_stepIndep (cfg : Config) (rules rules' : List RuleMeta)
    (meta : List (String × Val)) (fm : String → Option String)
    (hF : List.Forall₂ stepRel rules rules') :
    Ruler.matchMeta (Ruler.mk cfg rules) meta fm
      = Ruler.matchMeta (Ruler.mk cfg rules') meta fm := by
  unfold Ruler.matchMeta Ruler.matchFull
  rcases cfgMinus cfg with e | dm
  · rfl
  · rcases cfgPlus cfg with e | dp
    · rfl
    · dsimp only
      by_cases h1 : truthyOpt (some dm) = false
      · rw [if_pos h1, if_pos h1]
      · rw [if_neg h1, if_neg h1]
        by_cases h2 : truthyOpt (some dp) = false
        · rw [if_pos h2, if_pos h2]
        · rw [if_neg h2, if_neg h2]
          rw [← pass1_stepIndep meta fm rules rules' hF]
          rcases pass1 meta fm rules
              { method_account := some dm, target_account := some dp }
              with e | ans1
          · rfl
          · dsimp only
            by_cases h3 : truthyOpt ans1.method_account = false
            · rw [if_pos h3, if_pos h3]
            · rw [if_neg h3, if_neg h3]
              by_cases h4 : truthyOpt ans1.target_account = false
              · rw [if_pos h4, if_pos h4]
              · rw [if_neg h4, if_neg h4]
                have hfst := pass2_stepIndep meta fm rules rules' hF ans1
                rcases hA : pass2 meta fm rules ans1 with eA | ⟨a1, rsx⟩ <;>
                  rcases hB : pass2 meta fm rules' ans1 with eB | ⟨a2, rsy⟩ <;>
                    rw [hA, hB] at hfst <;> simp only [Except.map] at hfst
                · injection hfst with h5
                  rw [h5]
                · cases hfst
                · cases hfst
                · injection hfst with h5
                  dsimp only
                  rw [h5]
                  by_cases h6 : truthyOpt a2.method_account = false
                  · rw [if_pos h6, if_pos h6]
                  · rw [if_neg h6, if_neg h6]
                    by_cases h7 : truthyOpt a2.target_account = false
                    · rw [if_pos h7, if_pos h7]
                    · rw [if_neg h7, if_neg h7]
                      rfl

theorem matchMeta_badDefault (R : Ruler) (meta : List (String × Val))
    (fm : String → Option String)
    (h : R.config.default_method_account = none ∨
      (∃ v, R.config.default_method_account = some v ∧ v.truthy = false) ∨
      R.config.default_target_account = none ∨
      (∃ v, R.config.default_target_account = some v ∧ v.truthy = false)) :
    ∃ e, R.matchMeta meta fm = Except.error e := by
  unfold Ruler.matchMeta Ruler.matchFull cfgMinus cfgPlus
  rcases hdm : R.config.default_method_account with _ | dm
  · exact ⟨PyErr.keyError "default_method_account", rfl⟩
  · dsimp only
    rcases hdp : R.config.default_target_account with _ | dp
    · exact ⟨PyErr.keyError "default_target_account", rfl⟩
    · dsimp only
      rcases h with h | ⟨v, hv, hvf⟩ | h | ⟨v, hv, hvf⟩
      · rw [h] at hdm; cases hdm
      · rw [hv] at hdm
        injection hdm with hdm2
        rw [hdm2] at hvf
        rw [if_pos (by simp [truthyOpt, hvf])]
        exact ⟨PyErr.assertError, rfl⟩
      · rw [h] at hdp; cases hdp
      · rw [hv] at hdp
        injection hdp with hdp2
        rw [hdp2] at hvf
        by_cases h1 : truthyOpt (some dm) = false
        · rw [if_pos h1]
          exact ⟨PyErr.assertError, rfl⟩
        · rw [if_neg h1, if_pos (by simp [truthyOpt, hvf])]
          exact ⟨PyErr.assertError, rfl⟩

theorem pass1_ignoreTail (meta : List (String × Val)) (fm : String → Option String) :
    ∀ l1 l2, (∀ s ∈ l2, s.check = true ∧ s.isTxnMethod = false) →
    ∀ ans, pass1 meta fm (l1 ++ l2) ans = pass1 meta fm l1 ans := by
  intro l1
  induction l1 with
  | nil =>
    intro l2 h ans
    rw [List.nil_append]
    induction l2 with
    | nil => rfl
    | cons s ss ih2 =>
      rcases h s (List.mem_cons_self s ss) with ⟨hck, hm⟩
      simp only [pass1]
      rw [if_neg (by simp [hck]), if_neg (by simp [hm])]
      exact ih2 (fun x hx => h x (List.mem_cons_of_mem s hx))
  | cons r l1 ih =>
    intro l2 h ans
    exact pass1_cons_congr meta fm r (l1 ++ l2) l1 (ih l2 h) ans

theorem pass1_frame (meta : List (String × Val)) (fm : String → Option String) :
    ∀ rules ans a, pass1 meta fm rules ans = Except.ok a →
      a = { ans with method_account := a.method_account } := by
  intro rules
  induction rules with
  | nil =>
    intro ans a hp
    injection hp with hp1
    rw [← hp1]
  | cons r rs ih =>
    intro ans a hp
    simp only [pass1] at hp
    by_cases hck : r.check = false
    · rw [if_pos hck] at hp; cases hp
    · rw [if_neg hck] at hp
      by_cases hm : r.isTxnMethod = true
      · rw [if_pos hm] at hp
        rcases hres : resolveKey fm (FieldK.name FieldK.txn_method) with _ | key
        · rw [hres] at hp
          exact ih ans a hp
        · rw [hres] at hp
          dsimp only at hp
          rcases hlv : lookupMeta meta key with _ | mv
          · rw [hlv] at hp; cases hp
          · rw [hlv] at hp
            dsimp only at hp
            by_cases heq : r.txn_method = some mv
            · rw [if_pos heq] at hp
              have := ih _ a hp
              rw [this]
            · rw [if_neg heq] at hp
              exact ih ans a hp
      · rw [if_neg hm] at hp
        exact ih ans a hp

theorem pass2_endBreak (meta : List (String × Val)) (fm : String → Option String)
    (R : RuleMeta) (hR : ¬R.isTxnMethod = true)
    (hRm : ruleMatch R meta fm = Except.ok (true, some true)) :
    ∀ l1 ans a rs, ¬ans.is_mask = some true →
      pass2 meta fm (l1 ++ [R]) ans = Except.ok (a, rs) →
      a.is_mask = some true := by
  intro l1 ans a rs hans hp
  rw [pass2_append meta fm l1 [R] ans hans] at hp
  rcases hseg : pass2 meta fm l1 ans with e | ⟨a1, rs1⟩
  · rw [hseg] at hp; cases hp
  · rw [hseg] at hp
    dsimp only at hp
    by_cases hmask : a1.is_mask = some true
    · rw [if_pos hmask] at hp
      injection hp with hp1
      injection hp1 with hp2 hp3
      rw [← hp2]
      exact hmask
    · rw [if_neg hmask] at hp
      by_cases hck : R.check = false
      · rw [p2Step_badCheck meta fm R [] a1 hR hck] at hp
        cases hp
      · rw [p2Step_break meta fm R [] a1 hR hck hRm] at hp
        dsimp only at hp
        injection hp with hp1
        injection hp1 with hp2 hp3
        rw [← hp2]

theorem setF_isMask (r : RuleMeta) (k : FieldK) (v : Option Val) :
    (RuleMeta.setF r k v).is_mask = r.is_mask := by
  cases k <;> rfl

theorem convertRule_isMask (cfg : List (String × Val)) :
    (convertRule cfg).is_mask = none := by
  unfold convertRule
  have hgen : ∀ (ks : List FieldK) (r : RuleMeta),
      (ks.foldl (fun r f =>
        match lookupMeta cfg (FieldK.name f) with
        | some v => RuleMeta.setF r f (some v)
        | none => r) r).is_mask = r.is_mask := by
    intro ks
    induction ks with
    | nil => intro r; rfl
    | cons k ks ih =>
      intro r
      rw [List.foldl_cons]
      rcases lookupMeta cfg (FieldK.name k) with _ | v
      · exact ih r
      · rw [ih (RuleMeta.setF r k (some v)), setF_isMask]
  exact hgen RuleMeta.fieldList {}

theorem mkRuler_inv (c : Config) (R : Ruler) (h : mkRuler c = Except.ok R) :
    R.config = c ∧ (∀ r ∈ R.rules, r.check = true) ∧
      (∀ r ∈ R.rules, r.is_mask = none) := by
  unfold mkRuler convertToRules at h
  rcases hr : c.rules with _ | rcfgs
  · rw [hr] at h; cases h
  · rw [hr] at h
    dsimp only at h
    by_cases hall : (rcfgs.map convertRule).all RuleMeta.check = true
    · rw [if_pos hall] at h
      injection h with h1
      rw [← h1]
      refine ⟨rfl, ?_, ?_⟩
      · intro r hrr
        exact List.all_eq_true.mp hall r hrr
      · intro r hrr
        rcases List.mem_map.mp hrr with ⟨cfg2, _, hc2⟩
        rw [← hc2]
        exact convertRule_isMask cfg2
    · rw [if_neg hall] at h; cases h

theorem collectAccounts_mem :
    ∀ rules acc (v : Val), v ∈ collectAccounts rules acc ↔
      (v ∈ acc ∨ ∃ r ∈ rules,
        (r.method_account = some v ∨ r.target_account = some v) ∧
          v.truthy = true) := by
  intro rules
  induction rules with
  | nil =>
    intro acc v
    simp [collectAccounts]
  | cons r rs ih =>
    intro acc v
    have hstep : ∀ l (w : Val) (x : Option Val), w ∈ (match x with
        | some u => if u.truthy then (if u ∈ l then l else l ++ [u]) else l
        | none => l) ↔ (w ∈ l ∨ (x = some w ∧ w.truthy = true)) := by
      intro l w x
      rcases x with _ | u
      · simp
      · dsimp only
        by_cases ht : u.truthy = true
        · rw [if_pos ht]
          by_cases hm : u ∈ l
          · rw [if_pos hm]
            constructor
            · intro hw; exact Or.inl hw
            · rintro (hw | ⟨hu, hwt⟩)
              · exact hw
              · injection hu with hu2; rw [← hu2]; exact hm
          · rw [if_neg hm]
            simp only [List.mem_append, List.mem_singleton]
            constructor
            · rintro (hw | hw)
              · exact Or.inl hw
              · exact Or.inr ⟨by rw [hw], by rw [hw]; exact ht⟩
            · rintro (hw | ⟨hu, hwt⟩)
              · exact Or.inl hw
              · injection hu with hu2; rw [hu2]; exact Or.inr rfl
        · rw [if_neg ht]
          constructor
          · intro hw; exact Or.inl hw
          · rintro (hw | ⟨hu, hwt⟩)
            · exact hw
            · injection hu with hu2; rw [hu2] at ht; exact absurd hwt ht
    rw [collectAccounts, ih]
    rw [hstep _ v r.target_account, hstep _ v r.method_account]
    constructor
    · rintro (((hv | ⟨h1, h2⟩) | ⟨h1, h2⟩) | ⟨s, hs, hacc, ht⟩)
      · exact Or.inl hv
      · exact Or.inr ⟨r, List.mem_cons_self r rs, Or.inl h1, h2⟩
      · exact Or.inr ⟨r, List.mem_cons_self r rs, Or.inr h1, h2⟩
      · exact Or.inr ⟨s, List.mem_cons_of_mem r hs, hacc, ht⟩
    · rintro (hv | ⟨s, hs, hacc, ht⟩)
      · exact Or.inl (Or.inl (Or.inl hv))
      · rcases List.mem_cons.mp hs with hs | hs
        · rw [hs] at hacc
          rcases hacc with h1 | h1
          · exact Or.inl (Or.inl (Or.inr ⟨h1, ht⟩))
          · exact Or.inl (Or.inr ⟨h1, ht⟩)
        · exact Or.inr ⟨s, hs, hacc, ht⟩

theorem collectAccounts_nodup :
    ∀ rules acc, acc.Nodup → (collectAccounts rules acc).Nodup := by
  intro rules
  induction rules with
  | nil => intro acc h; exact h
  | cons r rs ih =>
    intro acc h
    have hstep : ∀ (l : List Val) (x : Option Val), l.Nodup → (match x with
        | some u => if u.truthy then (if u ∈ l then l else l ++ [u]) else l
        | none => l).Nodup := by
      intro l x hl
      rcases x with _ | u
      · exact hl
      · dsimp only
        by_cases ht : u.truthy = true
        · rw [if_pos ht]
          by_cases hm : u ∈ l
          · rw [if_pos hm]; exact hl
          · rw [if_neg hm]
            rw [List.nodup_append]
            exact ⟨hl, List.nodup_singleton u, by
              intro a ha hb
              rw [List.mem_singleton] at hb
              rw [hb] at ha
              exact hm ha⟩
        · rw [if_neg ht]; exact hl
    rw [collectAccounts]
    exact ih _ (hstep _ r.target_account (hstep _ r.method_account h))

theorem toStrings_spec :
    ∀ l : List Val, (∀ v ∈ l, ∃ s, v = Val.vstr s) →
      ∃ ss, toStrings l = some ss ∧
        (∀ a, a ∈ ss ↔ Val.vstr a ∈ l) ∧ (l.Nodup → ss.Nodup) := by
  intro l
  induction l with
  | nil => exact fun _ => ⟨[], rfl, by simp, fun _ => List.nodup_nil⟩
  | cons v rest ih =>
    intro h
    rcases h v (List.mem_cons_self v rest) with ⟨s, hs⟩
    rcases ih (fun x hx => h x (List.mem_cons_of_mem v hx)) with ⟨ss, hss, hmem, hnd⟩
    refine ⟨s :: ss, ?_, ?_, ?_⟩
    · rw [hs, toStrings, hss]
    · intro a
      rw [hs]
      simp only [List.mem_cons, hmem]
      constructor
      · rintro (ha | ha)
        · exact Or.inl (by rw [ha])
        · exact Or.inr ha
      · rintro (ha | ha)
        · injection ha with ha2; exact Or.inl ha2
        · exact Or.inr ha
    · intro hndc
      rw [hs] at hndc
      rcases List.nodup_cons.mp hndc with ⟨hvn, hrn⟩
      rw [List.nodup_cons]
      refine ⟨fun hcon => hvn ((hmem s).mp hcon), hnd hrn⟩

/-- Claim C7: for a rule with `txn_mask` `"foo"` and `txn_exclude` `"bar"`,
a record metadata value containing `"foobar"` makes the predicate succeed
with the resolved mask state false (exclusion cancels the mask, processing
continues to later rules), while a value containing `"foobaz"` resolves
the mask state true and `match` stops further rule processing (a later
matching rule does not affect the result). -/
theorem c7_mask_exclusion_scenario :
    ruleMatch maskFooBar metaFoobar idFM = Except.ok (true, some false) ∧
    Ruler.matchMeta engMask metaFoobar idFM =
      Except.ok
        { payee := some (Val.vstr "p"),
          method_account := some (Val.vstr "Assets:M"),
          target_account := some (Val.vstr "T2") } ∧
    ruleMatch maskFooBar metaFoobaz idFM = Except.ok (true, some true) ∧
    Ruler.matchMeta engMask metaFoobaz idFM =
      Except.ok
        { method_account := some (Val.vstr "Assets:M"),
          target_account := some (Val.vstr "Expenses:T"),
          is_mask := some true } :=
  ⟨rfl, rfl, rfl, rfl⟩

/-- Claim C10: when a matching rule resolves its mask state to true, pass 2
returns the accumulated working result unchanged except for its `is_mask`
flag being set to true; the mask-firing rule's own `method_account`,
`target_account` and other fields are never copied onto the result, and the
remaining rules are left unprocessed. -/
theorem c10_mask_preserves_accumulated (meta : List (String × Val))
    (fm : String → Option String) (r : RuleMeta) (rest : List RuleMeta)
    (ans : RuleMeta) (hm : ¬r.isTxnMethod = true) (hck : r.check = true)
    (hmm : ruleMatch r meta fm = Except.ok (true, some true)) :
    pass2 meta fm (r :: rest) ans =
      Except.ok ({ ans with is_mask := some true },
        { r with is_mask := some true } :: rest) :=
  p2Step_break meta fm r rest ans hm (by simp [hck]) hmm

/-- Witness for C10 at a concrete mask rule, record and accumulated
result: the mask-firing rule's target account is not copied. -/
theorem c10_mask_preserves_accumulated_witness :
    pass2 metaWx idFM [maskFoo, rT1]
        { method_account := some (Val.vstr "Assets:M"),
          target_account := some (Val.vstr "Expenses:T") } =
      Except.ok
        ({ method_account := some (Val.vstr "Assets:M"),
           target_account := some (Val.vstr "Expenses:T"),
           is_mask := some true },
          { maskFoo with is_mask := some true } :: [rT1]) :=
  c10_mask_preserves_accumulated metaWx idFM maskFoo [rT1] _
    (by decide) (by decide) (by decide)

/-- Claim C1 counterexample: a validly constructed engine raises
`KeyError` from `match` when a rule field name (here `payee`, via the
identity resolver) is absent from the record's keys, instead of treating
the field as failing to match. -/
theorem c1_counterexample :
    mkRuler cfgB = Except.ok engB ∧
    Ruler.matchMeta engB [("item", Val.vstr "x")] idFM =
      Except.error (PyErr.keyError "payee") :=
  ⟨by decide, rfl⟩

/-- Claim C2 counterexample: a mask rule fires (resolved mask state true)
on the first rule, yet a method rule placed after it in the list still
changes the returned `method_account` through pass 1; removing that later
rule changes the result, so the result is not unaffected by rules after
the mask match. -/
theorem c2_counterexample :
    ruleMatch maskFoo metaWx idFM = Except.ok (true, some true) ∧
    Ruler.matchMeta engMaskMethod metaWx idFM =
      Except.ok
        { method_account := some (Val.vstr "Assets:W"),
          target_account := some (Val.vstr "Expenses:T"),
          is_mask := some true } ∧
    Ruler.matchMeta engMaskOnly metaWx idFM =
      Except.ok
        { method_account := some (Val.vstr "Assets:M"),
          target_account := some (Val.vstr "Expenses:T"),
          is_mask := some true } ∧
    Ruler.matchMeta engMaskMethod metaWx idFM ≠
      Ruler.matchMeta engMaskOnly metaWx idFM :=
  ⟨rfl, rfl, rfl, by decide⟩

/-- Claim C3 counterexample: `rT1` (earlier) and `rT2` (later) are
non-mask, non-method rules that both match the record and both set
`target_account`, yet the result's `target_account` is not `rT2`'s value
`"T2"` but `"T3"`, because a third matching rule follows `rT2`. -/
theorem c3_counterexample :
    ruleMatch rT1 metaA idFM = Except.ok (true, none) ∧
    ruleMatch rT2 metaA idFM = Except.ok (true, none) ∧
    rT1.isTxnMethod = false ∧ rT2.isTxnMethod = false ∧
    rT1.txn_mask = none ∧ rT2.txn_mask = none ∧
    rT2.target_account = some (Val.vstr "T2") ∧
    Ruler.matchMeta engT3 metaA idFM =
      Except.ok
        { payee := some (Val.vstr "a"),
          method_account := some (Val.vstr "Assets:M"),
          target_account := some (Val.vstr "T3") } ∧
    some (Val.vstr "T3") ≠ some (Val.vstr "T2") :=
  ⟨rfl, rfl, rfl, rfl, rfl, rfl, rfl, rfl, by decide⟩

/-- Claim C5 counterexample: engine construction succeeds (an engine is
returned) although the default method account is missing from the
configuration; no exception is raised at construction time. -/
theorem c5_counterexample :
    cfgNoDm.default_method_account = none ∧
    mkRuler cfgNoDm = Except.ok engNoDm :=
  ⟨rfl, by decide⟩

/-- Claim C4: pass 1 of `match` considers exactly the method rules (its
result is unchanged by filtering out the non-method rules, provided every
rule passes the `check` assertion pass 1 itself performs); the last method
rule in list order whose `txn_method` equals the resolved record value
determines `method_account` (stated against the spec-style fold
`lastMethodAccount`); pass 1 changes no field other than
`method_account`; and the rules handled in pass 1 are skipped by pass 2
(the pass 2 result is unchanged by removing the method rules). -/
theorem c4_pass1_method_rules (meta : List (String × Val))
    (fm : String → Option String) (rules : List RuleMeta) (ans : RuleMeta)
    (hc : ∀ r ∈ rules, r.check = true) (hs : p1safe meta fm rules) :
    pass1 meta fm rules ans =
      pass1 meta fm (rules.filter (fun r => r.isTxnMethod)) ans ∧
    pass1 meta fm rules ans =
      Except.ok { ans with
        method_account := lastMethodAccount meta fm rules ans.method_account } ∧
    Except.map Prod.fst (pass2 meta fm rules ans) =
      Except.map Prod.fst
        (pass2 meta fm (rules.filter (fun r => !r.isTxnMethod)) ans) :=
  ⟨pass1_filterMethod meta fm rules hc ans,
   pass1_char meta fm rules hc hs ans,
   pass2_fstFilter meta fm rules ans⟩

/-- Witness for C4 at a concrete engine with one method rule and one
plain rule, on a record matching both. -/
theorem c4_pass1_method_rules_witness :
    pass1 metaP1 idFM [methodWx, rT1]
        { method_account := some (Val.vstr "Assets:M"),
          target_account := some (Val.vstr "Expenses:T") } =
      pass1 metaP1 idFM ([methodWx, rT1].filter (fun r => r.isTxnMethod))
        { method_account := some (Val.vstr "Assets:M"),
          target_account := some (Val.vstr "Expenses:T") } ∧
    pass1 metaP1 idFM [methodWx, rT1]
        { method_account := some (Val.vstr "Assets:M"),
          target_account := some (Val.vstr "Expenses:T") } =
      Except.ok
        { method_account := lastMethodAccount metaP1 idFM [methodWx, rT1]
            (some (Val.vstr "Assets:M")),
          target_account := some (Val.vstr "Expenses:T") } ∧
    Except.map Prod.fst (pass2 metaP1 idFM [methodWx, rT1]
        { method_account := some (Val.vstr "Assets:M"),
          target_account := some (Val.vstr "Expenses:T") }) =
      Except.map Prod.fst
        (pass2 metaP1 idFM ([methodWx, rT1].filter (fun r => !r.isTxnMethod))
          { method_account := some (Val.vstr "Assets:M"),
            target_account := some (Val.vstr "Expenses:T") }) :=
  c4_pass1_method_rules metaP1 idFM [methodWx, rT1]
    { method_account := some (Val.vstr "Assets:M"),
      target_account := some (Val.vstr "Expenses:T") }
    (by decide) (fun _ => by decide)

/-- Claim C6: on a record where no method rule matches in pass 1 and no
other rule's predicate succeeds, `match` returns exactly the configured
defaults, with the mask flag unset (falsy). -/
theorem c6_no_match_defaults (cfg : Config) (rules : List RuleMeta)
    (meta : List (String × Val)) (fm : String → Option String) (dm dp : Val)
    (hdm : cfg.default_method_account = some dm)
    (hdp : cfg.default_target_account = some dp)
    (hdmt : dm.truthy = true) (hdpt : dp.truthy = true)
    (hc : ∀ r ∈ rules, r.check = true) (hs : p1safe meta fm rules)
    (hnm : ∀ r ∈ rules, r.isTxnMethod = true → methodMatches meta fm r = false)
    (hnp : ∀ r ∈ rules, r.isTxnMethod = false →
      ∃ st, ruleMatch r meta fm = Except.ok (false, st)) :
    Ruler.matchMeta (Ruler.mk cfg rules) meta fm =
      Except.ok { method_account := some dm, target_account := some dp } ∧
    ({ method_account := some dm, target_account := some dp } : RuleMeta).is_mask
      = none := by
  refine ⟨?_, rfl⟩
  have hlast : lastMethodAccount meta fm rules (some dm) = some dm :=
    lastMethodAccount_noMatch meta fm rules hnm (some dm)
  have hp1 : pass1 meta fm rules
      { method_account := some dm, target_account := some dp } =
      Except.ok { method_account := some dm, target_account := some dp } := by
    rw [pass1_char meta fm rules hc hs]
    rw [show ({ method_account := some dm, target_account := some dp }
      : RuleMeta).method_account = some dm from rfl, hlast]
  have hskip : ∀ r ∈ rules, r.isTxnMethod = true ∨
      (r.check = true ∧ ∃ st, ruleMatch r meta fm = Except.ok (false, st)) := by
    intro r hr
    rcases hbm : r.isTxnMethod with _ | _
    · exact Or.inr ⟨hc r hr, hnp r hr hbm⟩
    · exact Or.inl rfl
  rcases pass2_skipAll meta fm rules hskip
      { method_account := some dm, target_account := some dp } with ⟨rs2, hp2⟩
  have hfull := matchFull_eq (Ruler.mk cfg rules) meta fm dm dp hdm hdp hdmt hdpt
    { method_account := some dm, target_account := some dp } hp1
    (by simp [truthyOpt, hdmt]) (by simp [truthyOpt, hdpt])
    { method_account := some dm, target_account := some dp } rs2 hp2
    (by simp [truthyOpt, hdmt]) (by simp [truthyOpt, hdpt])
  unfold Ruler.matchMeta
  rw [hfull]
  rfl

/-- Witness for C6: a record matching no rule of a concrete engine with
one method rule and one payee rule yields exactly the defaults. -/
theorem c6_no_match_defaults_witness :
    Ruler.matchMeta (Ruler.mk cfgA [methodWx, rT1]) metaNone idFM =
      Except.ok
        { method_account := some (Val.vstr "Assets:M"),
          target_account := some (Val.vstr "Expenses:T") } ∧
    ({ method_account := some (Val.vstr "Assets:M"),
       target_account := some (Val.vstr "Expenses:T") } : RuleMeta).is_mask
      = none :=
  c6_no_match_defaults cfgA [methodWx, rT1] metaNone idFM
    (Val.vstr "Assets:M") (Val.vstr "Expenses:T") rfl rfl (by decide) (by decide)
    (by decide) (fun _ => by decide) (by decide) (by decide)

/-- Claim C8: a rule's `is_mask` flag is the only state a `match` call may
change on the stored rules (frame property, first conjunct); the result of
`match` does not depend on `is_mask` state accumulated by earlier calls
(second conjunct, for any rule lists related by the per-call step relation);
and construction leaves every rule's `is_mask` unset (third conjunct). -/
theorem c8_transient_mask :
    (∀ (cfg : Config) (rules : List RuleMeta) (meta : List (String × Val))
        (fm : String → Option String) (a : RuleMeta) (rs2 : List RuleMeta),
      Ruler.matchFull (Ruler.mk cfg rules) meta fm = Except.ok (a, rs2) →
      List.Forall₂ stepRel rules rs2) ∧
    (∀ (cfg : Config) (rules rules' : List RuleMeta)
        (meta : List (String × Val)) (fm : String → Option String),
      List.Forall₂ stepRel rules rules' →
      Ruler.matchMeta (Ruler.mk cfg rules) meta fm
        = Ruler.matchMeta (Ruler.mk cfg rules') meta fm) ∧
    (∀ (c : Config) (R : Ruler), mkRuler c = Except.ok R →
      ∀ r ∈ R.rules, r.is_mask = none) := by
  refine ⟨?_, ?_, ?_⟩
  · intro cfg rules meta fm a rs2 h
    rcases matchFull_inv (Ruler.mk cfg rules) meta fm a rs2 h
      with ⟨dm, dp, ans1, _, _, _, hp2⟩
    exact pass2_frame meta fm rules ans1 a rs2 hp2
  · intro cfg rules rules' meta fm hF
    exact matchMeta_stepIndep cfg rules rules' meta fm hF
  · intro c R h
    exact (mkRuler_inv c R h).2.2

/-- Witness for C8: replaying `match` after the stored mask flag was
flipped by an earlier call yields the same result. -/
theorem c8_transient_mask_witness :
    Ruler.matchMeta engMaskOnly metaWx idFM =
      Ruler.matchMeta (Ruler.mk cfgA [{ maskFoo with is_mask := some false }])
        metaWx idFM :=
  c8_transient_mask.2.1 cfgA [maskFoo] [{ maskFoo with is_mask := some false }]
    metaWx idFM
    (List.Forall₂.cons ⟨rfl, fun h => by simp [maskFoo] at h⟩ List.Forall₂.nil)

/-- Claim C5 (amended): construction performs no validation of the default
accounts; instead, every `match` call on an engine whose configuration has
a missing or empty (falsy) default account raises (`KeyError` or an
assertion failure) before returning any result. -/
theorem c5_amended (c : Config) (R : Ruler) (meta : List (String × Val))
    (fm : String → Option String) (hR : mkRuler c = Except.ok R)
    (hbad : c.default_method_account = none ∨
      (∃ v, c.default_method_account = some v ∧ v.truthy = false) ∨
      c.default_target_account = none ∨
      (∃ v, c.default_target_account = some v ∧ v.truthy = false)) :
    ∃ e, R.matchMeta meta fm = Except.error e := by
  apply matchMeta_badDefault
  rw [(mkRuler_inv c R hR).1]
  exact hbad

/-- Witness for C5 (amended): the engine built from the configuration with
the missing default fails on a `match` call. -/
theorem c5_amended_witness :
    exOk (Ruler.matchMeta engNoDm [] idFM) = false := by
  obtain ⟨e, he⟩ := c5_amended cfgNoDm engNoDm [] idFM (by decide) (Or.inl rfl)
  rw [he]
  rfl

/-- Claim C1 (amended): `match` is total — an unresolvable (falsy)
field-name-resolver lookup is treated as the field failing to match, never
as an error — provided every resolver-resolved field name is present in
the record's keys and the rules carry string field values; a resolved
field name absent from the record instead raises `KeyError`
(`c1_counterexample`). -/
theorem c1_amended (R : Ruler) (meta : List (String × Val))
    (fm : String → Option String) (dm dp : Val)
    (hdm : R.config.default_method_account = some dm)
    (hdp : R.config.default_target_account = some dp)
    (hdmt : dm.truthy = true) (hdpt : dp.truthy = true)
    (hc : ∀ r ∈ R.rules, r.check = true ∧ strFields r = true)
    (hs : p1safe meta fm R.rules)
    (hks : keysSafeB meta fm = true) :
    (∃ a, R.matchMeta meta fm = Except.ok a) ∧
    (∀ vals, eqFieldCheck meta none vals = Except.ok false) := by
  refine ⟨?_, eqFieldCheck_noneRes meta⟩
  have hp1 : pass1 meta fm R.rules
      { method_account := some dm, target_account := some dp } =
      Except.ok
        { method_account := lastMethodAccount meta fm R.rules (some dm),
          target_account := some dp } :=
    pass1_char meta fm R.rules (fun r hr => (hc r hr).1) hs _
  have h1m : truthyOpt (lastMethodAccount meta fm R.rules (some dm)) = true :=
    lastMethodAccount_truthy meta fm R.rules (some dm) (by simp [truthyOpt, hdmt])
  have h1t : truthyOpt (some dp) = true := by simp [truthyOpt, hdpt]
  rcases pass2_total meta fm hks R.rules hc
      { method_account := lastMethodAccount meta fm R.rules (some dm),
        target_account := some dp } with ⟨a, rs2, hp2⟩
  rcases pass2_truthy meta fm R.rules _ a rs2 hp2 h1m h1t with ⟨ham, hat⟩
  refine ⟨a, ?_⟩
  unfold Ruler.matchMeta
  rw [matchFull_eq R meta fm dm dp hdm hdp hdmt hdpt _ hp1 h1m h1t a rs2 hp2 ham hat]
  rfl

/-- Witness for C1 (amended): a concrete engine and record (all resolved
field names present) on which `match` returns a result. -/
theorem c1_amended_witness :
    exOk (Ruler.matchMeta (Ruler.mk cfgA [ruleP])
      [("payee", Val.vstr "jim")] fmP) = true := by
  obtain ⟨a, ha⟩ := (c1_amended (Ruler.mk cfgA [ruleP]) [("payee", Val.vstr "jim")]
    fmP (Val.vstr "Assets:M") (Val.vstr "Expenses:T") rfl rfl (by decide)
    (by decide) (by decide) (fun _ => by decide) (by decide)).1
  rw [ha]
  rfl

/-- Claim C9: `garther_accounts` returns a lexicographically sorted list
without duplicates whose members are exactly the two configured default
accounts together with every truthy (set) `method_account` or
`target_account` of any rule (stated for string-valued accounts, which is
what Python's `list.sort` supports uniformly). -/
theorem c9_garther_sorted (cfg : Config) (rules : List RuleMeta)
    (dms dps : String)
    (hdm : cfg.default_method_account = some (Val.vstr dms))
    (hdp : cfg.default_target_account = some (Val.vstr dps))
    (hacc : ∀ r ∈ rules, accStrB r = true) :
    ∃ l, Ruler.gartherAccounts (Ruler.mk cfg rules) = Except.ok l ∧
      List.Pairwise (fun a b : String => a < b) l ∧
      ∀ s : String, s ∈ l ↔ (s = dms ∨ s = dps ∨
        ∃ r ∈ rules, (r.method_account = some (Val.vstr s) ∨
          r.target_account = some (Val.vstr s)) ∧ ¬s = "") := by
  have hbase_mem : ∀ v : Val, v ∈ (if (Val.vstr dps) = (Val.vstr dms)
      then [Val.vstr dms] else [Val.vstr dms, Val.vstr dps]) ↔
      (v = Val.vstr dms ∨ v = Val.vstr dps) := by
    intro v
    by_cases he : (Val.vstr dps) = (Val.vstr dms)
    · rw [if_pos he]
      simp only [List.mem_singleton]
      constructor
      · intro h; exact Or.inl h
      · rintro (h | h)
        · exact h
        · rw [h, he]
    · rw [if_neg he]
      simp [List.mem_cons]
  have hbase_nodup : (if (Val.vstr dps) = (Val.vstr dms)
      then [Val.vstr dms] else [Val.vstr dms, Val.vstr dps]).Nodup := by
    by_cases he : (Val.vstr dps) = (Val.vstr dms)
    · rw [if_pos he]; exact List.nodup_singleton _
    · rw [if_neg he]
      refine List.nodup_cons.mpr ⟨?_, List.nodup_singleton _⟩
      rw [List.mem_singleton]
      intro hcon
      exact he (by rw [hcon])
  have hcol_mem := fun v => collectAccounts_mem rules
    (if (Val.vstr dps) = (Val.vstr dms)
     then [Val.vstr dms] else [Val.vstr dms, Val.vstr dps]) v
  have hcol_nodup := collectAccounts_nodup rules
    (if (Val.vstr dps) = (Val.vstr dms)
     then [Val.vstr dms] else [Val.vstr dms, Val.vstr dps]) hbase_nodup
  have hcol_str : ∀ v ∈ collectAccounts rules
      (if (Val.vstr dps) = (Val.vstr dms)
       then [Val.vstr dms] else [Val.vstr dms, Val.vstr dps]),
      ∃ s, v = Val.vstr s := by
    intro v hv
    rcases (hcol_mem v).mp hv with hb | ⟨r, hr, hmt, ht⟩
    · rcases (hbase_mem v).mp hb with h | h
      · exact ⟨dms, h⟩
      · exact ⟨dps, h⟩
    · have hra := hacc r hr
      unfold accStrB at hra
      rcases Bool.and_eq_true _ _ |>.mp hra with ⟨hm1, hm2⟩
      rcases hmt with hmt | hmt
      · rw [hmt] at hm1
        rcases v with s | n
        · exact ⟨s, rfl⟩
        · simp [valIsStr] at hm1
      · rw [hmt] at hm2
        rcases v with s | n
        · exact ⟨s, rfl⟩
        · simp [valIsStr] at hm2
  rcases toStrings_spec _ hcol_str with ⟨ss, hts, hssmem, hssnd⟩
  refine ⟨List.insertionSort (fun a b : String => a ≤ b) ss, ?_, ?_, ?_⟩
  · unfold Ruler.gartherAccounts cfgMinus cfgPlus
    rw [hdm, hdp]
    dsimp only
    rw [hts]
  · have hsorted : List.Sorted (fun a b : String => a ≤ b)
        (List.insertionSort (fun a b : String => a ≤ b) ss) :=
      List.sorted_insertionSort _ ss
    have hnd : (List.insertionSort (fun a b : String => a ≤ b) ss).Nodup :=
      (List.perm_insertionSort _ ss).nodup_iff.mpr (hssnd hcol_nodup)
    exact List.Sorted.lt_of_le hsorted hnd
  · intro s
    rw [List.mem_insertionSort, hssmem s]
    rw [hcol_mem (Val.vstr s), hbase_mem (Val.vstr s)]
    have htruthy : (Val.vstr s).truthy = true ↔ ¬s = "" := by
      simp [Val.truthy]
    constructor
    · rintro ((h | h) | ⟨r, hr, hmt, ht⟩)
      · injection h with h2; exact Or.inl h2
      · injection h with h2; exact Or.inr (Or.inl h2)
      · exact Or.inr (Or.inr ⟨r, hr, hmt, htruthy.mp ht⟩)
    · rintro (h | h | ⟨r, hr, hmt, hne⟩)
      · exact Or.inl (Or.inl (by rw [h]))
      · exact Or.inl (Or.inr (by rw [h]))
      · exact Or.inr ⟨r, hr, hmt, htruthy.mpr hne⟩

/-- Witness for C9: the accounts of a concrete engine are produced as a
sorted list. -/
theorem c9_garther_sorted_witness :
    exOk (Ruler.gartherAccounts engB) = true := by
  obtain ⟨l, hl, _, _⟩ := c9_garther_sorted cfgB [ruleP] "Assets:M" "Expenses:T"
    rfl rfl (by decide)
  show exOk (Ruler.gartherAccounts (Ruler.mk cfgB [ruleP])) = true
  rw [hl]
  rfl

/-- Claim C2 (amended): when a non-method rule's predicate succeeds in
pass 2 with a resolved mask state of true, the result's mask flag is set
and processing stops immediately: no non-method rule after it in the list
affects the returned result (the result is the same for any two tails of
checked non-method rules).  Later method rules, however, still affect
`method_account` through pass 1 (`c2_counterexample`). -/
theorem c2_amended (cfg : Config) (pre : List RuleMeta) (R : RuleMeta)
    (rest rest' : List RuleMeta) (meta : List (String × Val))
    (fm : String → Option String)
    (hR : ¬R.isTxnMethod = true)
    (hRm : ruleMatch R meta fm = Except.ok (true, some true))
    (hrest : ∀ s ∈ rest, s.check = true ∧ s.isTxnMethod = false)
    (hrest' : ∀ s ∈ rest', s.check = true ∧ s.isTxnMethod = false) :
    Ruler.matchMeta (Ruler.mk cfg (pre ++ R :: rest)) meta fm
      = Ruler.matchMeta (Ruler.mk cfg (pre ++ R :: rest')) meta fm := by
  have hsplit : ∀ l : List RuleMeta, pre ++ R :: l = (pre ++ [R]) ++ l := by
    intro l
    rw [List.append_assoc]
    rfl
  rw [hsplit rest, hsplit rest']
  unfold Ruler.matchMeta Ruler.matchFull
  rcases cfgMinus cfg with e | dm
  · rfl
  · rcases cfgPlus cfg with e | dp
    · rfl
    · dsimp only
      by_cases h1 : truthyOpt (some dm) = false
      · rw [if_pos h1, if_pos h1]
      · rw [if_neg h1, if_neg h1]
        by_cases h2 : truthyOpt (some dp) = false
        · rw [if_pos h2, if_pos h2]
        · rw [if_neg h2, if_neg h2]
          rw [pass1_ignoreTail meta fm (pre ++ [R]) rest hrest,
            pass1_ignoreTail meta fm (pre ++ [R]) rest' hrest']
          rcases hp1 : pass1 meta fm (pre ++ [R])
              { method_account := some dm, target_account := some dp }
              with e | ans1
          · rfl
          · dsimp only
            by_cases h3 : truthyOpt ans1.method_account = false
            · rw [if_pos h3, if_pos h3]
            · rw [if_neg h3, if_neg h3]
              by_cases h4 : truthyOpt ans1.target_account = false
              · rw [if_pos h4, if_pos h4]
              · rw [if_neg h4, if_neg h4]
                have hmask1 : ¬ans1.is_mask = some true := by
                  rw [pass1_frame meta fm (pre ++ [R]) _ ans1 hp1]
                  simp
                rw [pass2_append meta fm (pre ++ [R]) rest ans1 hmask1,
                  pass2_append meta fm (pre ++ [R]) rest' ans1 hmask1]
                rcases hseg : pass2 meta fm (pre ++ [R]) ans1 with e | ⟨aseg, rsseg⟩
                · rfl
                · dsimp only
                  have hbr : aseg.is_mask = some true :=
                    pass2_endBreak meta fm R hR hRm pre ans1 aseg rsseg hmask1 hseg
                  rw [if_pos hbr, if_pos hbr]
                  dsimp only
                  by_cases h5 : truthyOpt aseg.method_account = false
                  · rw [if_pos h5, if_pos h5]
                  · rw [if_neg h5, if_neg h5]
                    by_cases h6 : truthyOpt aseg.target_account = false
                    · rw [if_pos h6, if_pos h6]
                    · rw [if_neg h6, if_neg h6]
                      rfl

/-- Witness for C2 (amended): removing a trailing non-method rule after
the mask-firing rule leaves the result unchanged. -/
theorem c2_amended_witness :
    Ruler.matchMeta (Ruler.mk cfgA ([] ++ maskFoo :: [rT1])) metaWx idFM
      = Ruler.matchMeta (Ruler.mk cfgA ([] ++ maskFoo :: [])) metaWx idFM :=
  c2_amended cfgA [] maskFoo [rT1] [] metaWx idFM (by decide) (by decide)
    (by decide) (by decide)

/-- Claim C3 (amended): for non-mask, non-method rules R1 (earlier) and R2
(later) that both match the record and both set `targetAccount`, the
result's `targetAccount` equals R2's value and R2's non-account fields
overwrite R1's (last-match-wins, no merging) — provided no rule before R2
resolves a true mask state and no rule after R2 matches; otherwise a mask
break or a later matching rule changes the outcome
(`c3_counterexample`). -/
theorem c3_amended (cfg : Config) (pre post : List RuleMeta) (R1 R2 : RuleMeta)
    (tv dm dp : Val) (meta : List (String × Val)) (fm : String → Option String)
    (hdm : cfg.default_method_account = some dm) (hdmt : dm.truthy = true)
    (hdp : cfg.default_target_account = some dp) (hdpt : dp.truthy = true)
    (hc : ∀ r ∈ pre ++ R2 :: post, r.check = true)
    (hs : p1safe meta fm (pre ++ R2 :: post))
    (hR1 : R1 ∈ pre) (hR1m : ¬R1.isTxnMethod = true)
    (hR1match : ∃ st, ruleMatch R1 meta fm = Except.ok (true, st) ∧
      ¬st = some true)
    (hR1t : ∃ w, R1.target_account = some w ∧ w.truthy = true)
    (hpre : ∀ s ∈ pre, s.isTxnMethod = true ∨
      (∃ b st, ruleMatch s meta fm = Except.ok (b, st) ∧ ¬st = some true))
    (hR2m : ¬R2.isTxnMethod = true)
    (hR2match : ∃ st, ruleMatch R2 meta fm = Except.ok (true, st) ∧
      ¬st = some true)
    (hR2t : R2.target_account = some tv) (htvt : tv.truthy = true)
    (hpost : ∀ s ∈ post, s.isTxnMethod = true ∨
      (∃ st, ruleMatch s meta fm = Except.ok (false, st))) :
    ∃ a, Ruler.matchMeta (Ruler.mk cfg (pre ++ R2 :: post)) meta fm
        = Except.ok a ∧
      a.target_account = some tv ∧
      ∀ k, ¬k = FieldK.method_account → ¬k = FieldK.target_account →
        RuleMeta.getF a k = RuleMeta.getF R2 k := by
  obtain ⟨st2, hmm2, hst2⟩ := hR2match
  have hcpre : ∀ s ∈ pre, s.check = true :=
    fun s hsm => hc s (List.mem_append_left _ hsm)
  have hcR2 : R2.check = true :=
    hc R2 (List.mem_append_right pre (List.mem_cons_self R2 post))
  have hcpost : ∀ s ∈ post, s.check = true :=
    fun s hsm => hc s (List.mem_append_right pre (List.mem_cons_of_mem R2 hsm))
  have hp1 : pass1 meta fm (pre ++ R2 :: post)
      { method_account := some dm, target_account := some dp } =
      Except.ok
        { method_account :=
            lastMethodAccount meta fm (pre ++ R2 :: post) (some dm),
          target_account := some dp } :=
    pass1_char meta fm (pre ++ R2 :: post) hc hs _
  have h1m : truthyOpt
      (lastMethodAccount meta fm (pre ++ R2 :: post) (some dm)) = true :=
    lastMethodAccount_truthy meta fm (pre ++ R2 :: post) (some dm)
      (by simp [truthyOpt, hdmt])
  have h1t : truthyOpt (some dp) = true := by simp [truthyOpt, hdpt]
  have hpre2 : ∀ s ∈ pre, s.isTxnMethod = true ∨
      (s.check = true ∧ ∃ b st, ruleMatch s meta fm = Except.ok (b, st) ∧
        ¬st = some true) := by
    intro s hsm
    rcases hpre s hsm with h | ⟨b, st, hmm, hst⟩
    · exact Or.inl h
    · exact Or.inr ⟨hcpre s hsm, b, st, hmm, hst⟩
  have hmaskans1 : ¬(none : Option Bool) = some true := by simp
  rcases pass2_noBreak meta fm pre hpre2
      { method_account := lastMethodAccount meta fm (pre ++ R2 :: post) (some dm),
        target_account := some dp } hmaskans1 with ⟨aP, rsP, hpreRun, haP⟩
  rcases pass2_truthy meta fm pre _ aP rsP hpreRun h1m h1t with ⟨haPm, haPt⟩
  have hpost2 : ∀ s ∈ post, s.isTxnMethod = true ∨
      (s.check = true ∧ ∃ st, ruleMatch s meta fm = Except.ok (false, st)) := by
    intro s hsm
    rcases hpost s hsm with h | h
    · exact Or.inl h
    · exact Or.inr ⟨hcpost s hsm, h⟩
  rcases pass2_skipAll meta fm post hpost2 (applyRule aP R2 st2) with ⟨rsQ, hpostRun⟩
  have hsegR2 : pass2 meta fm (R2 :: post) aP =
      Except.ok (applyRule aP R2 st2, { R2 with is_mask := st2 } :: rsQ) := by
    rw [p2Step_over meta fm R2 post aP st2 hR2m (by simp [hcR2]) hmm2 hst2,
      hpostRun]
  have hp2 : pass2 meta fm (pre ++ R2 :: post)
      { method_account := lastMethodAccount meta fm (pre ++ R2 :: post) (some dm),
        target_account := some dp } =
      Except.ok (applyRule aP R2 st2,
        rsP ++ ({ R2 with is_mask := st2 } :: rsQ)) := by
    rw [pass2_append meta fm pre (R2 :: post) _ hmaskans1, hpreRun]
    dsimp only
    rw [if_neg haP, hsegR2]
  have ham : truthyOpt (applyRule aP R2 st2).method_account = true := by
    rw [applyRule_method]
    by_cases hq : truthyOpt R2.method_account = true
    · rw [if_pos hq]; exact hq
    · rw [if_neg hq]; exact haPm
  have hat : (applyRule aP R2 st2).target_account = some tv := by
    rw [applyRule_target, hR2t, if_pos (by simp [truthyOpt, htvt])]
  have hatt : truthyOpt (applyRule aP R2 st2).target_account = true := by
    rw [hat]
    simp [truthyOpt, htvt]
  have hfull := matchFull_eq (Ruler.mk cfg (pre ++ R2 :: post)) meta fm dm dp
    hdm hdp hdmt hdpt _ hp1 h1m h1t _ _ hp2 ham hatt
  refine ⟨applyRule aP R2 st2, ?_, hat, ?_⟩
  · unfold Ruler.matchMeta
    rw [hfull]
    rfl
  · intro k hk1 hk2
    exact applyRule_getF aP R2 st2 k hk1 hk2

/-- Witness for C3 (amended): with rules `[rT1, rT2]` and a record
matching both, the result's target account is rT2's. -/
theorem c3_amended_witness :
    exOk (Ruler.matchMeta (Ruler.mk cfgA ([rT1] ++ rT2 :: [])) metaA idFM)
      = true := by
  obtain ⟨a, ha, _, _⟩ := c3_amended cfgA [rT1] [] rT1 rT2
    (Val.vstr "T2") (Val.vstr "Assets:M") (Val.vstr "Expenses:T") metaA idFM
    rfl (by decide) rfl (by decide) (by decide)
    (fun h => absurd h (by decide))
    (by decide) (by decide) (by decide)
    ⟨Val.vstr "T1", rfl, by decide⟩
    (by decide) (by decide) (by decide) (by decide) (by decide) (by decide)
  rw [ha]
  rfl
